import Mathlib

/-!
Verification of `traitschema` (schema.py, io.py): a shallow embedding of the
`Schema` class (construction, `__eq__`, `save`/`load` dispatch, `to_npz`/
`from_npz`, `to_hdf`/`from_hdf`, `to_json`/`from_json`) and of the bundler
(`tempdir`, `bundle_schema`), together with theorems settling the frozen
claims about the natural-language specification.

Modelling conventions:
* numeric scalars and numeric array elements are modelled over `Int`
  (both binary formats store them exactly; Python's json module also
  round-trips numbers exactly);
* unicode strings are Lean `String`s (lists of unicode scalar values, the
  representable fragment of Python `str`);
* byte strings are `List Nat` with entries below 256;
* fallible operations return `Except`;
* external libraries (`h5py`, `numpy`, `json`, `hashlib`) are modelled at
  the granularity the source uses them: per-element text codecs, an HDF5
  file as a list of named datasets with attributes, a small JSON
  renderer/parser over the value shapes the encoder emits, and SHA-1
  implemented from the standard.
-/

set_option maxRecDepth 8000

namespace Traitschema

/-- Decidable equality for `Except`, used to evaluate the model on
concrete inputs. -/
instance {E A : Type} [dE : DecidableEq E] [dA : DecidableEq A] :
    DecidableEq (Except E A) := fun x y =>
  match x, y with
  | .ok a, .ok b =>
    match dA a b with
    | isTrue h => isTrue (by rw [h])
    | isFalse h => isFalse (by intro hh; cases hh; exact h rfl)
  | .error a, .error b =>
    match dE a b with
    | isTrue h => isTrue (by rw [h])
    | isFalse h => isFalse (by intro hh; cases hh; exact h rfl)
  | .ok _, .error _ => isFalse (fun hh => Except.noConfusion hh)
  | .error _, .ok _ => isFalse (fun hh => Except.noConfusion hh)

/-! ### UTF-8 codec (models Python `str.encode(encoding)` / `bytes.decode`)
for the default `utf8` encoding used by `to_hdf` / `from_hdf`. -/

/-- UTF-8 encoding of one unicode code point as a list of bytes. -/
def utf8EncodeCp (c : Nat) : List Nat :=
  if c < 0x80 then [c]
  else if c < 0x800 then [0xc0 + c / 64, 0x80 + c % 64]
  else if c < 0x10000 then [0xe0 + c / 4096, 0x80 + c / 64 % 64, 0x80 + c % 64]
  else [0xf0 + c / 262144, 0x80 + c / 4096 % 64, 0x80 + c / 64 % 64, 0x80 + c % 64]

/-- UTF-8 decoder over a byte list; `fuel` bounds the number of decoded
code points (one unit per code point). -/
def utf8DecodeAux : Nat → List Nat → Option (List Nat)
  | _, [] => some []
  | 0, _ :: _ => none
  | fuel + 1, b :: bs =>
    if b < 0x80 then
      (utf8DecodeAux fuel bs).map (b :: ·)
    else if b < 0xc0 then none
    else if b < 0xe0 then
      match bs with
      | b2 :: bs2 =>
        if 0x80 ≤ b2 ∧ b2 < 0xc0 then
          (utf8DecodeAux fuel bs2).map (((b - 0xc0) * 64 + (b2 - 0x80)) :: ·)
        else none
      | [] => none
    else if b < 0xf0 then
      match bs with
      | b2 :: b3 :: bs3 =>
        if (0x80 ≤ b2 ∧ b2 < 0xc0) ∧ (0x80 ≤ b3 ∧ b3 < 0xc0) then
          (utf8DecodeAux fuel bs3).map
            (((b - 0xe0) * 4096 + (b2 - 0x80) * 64 + (b3 - 0x80)) :: ·)
        else none
      | _ => none
    else if b < 0xf8 then
      match bs with
      | b2 :: b3 :: b4 :: bs4 =>
        if (0x80 ≤ b2 ∧ b2 < 0xc0) ∧ (0x80 ≤ b3 ∧ b3 < 0xc0) ∧ (0x80 ≤ b4 ∧ b4 < 0xc0) then
          (utf8DecodeAux fuel bs4).map
            (((b - 0xf0) * 262144 + (b2 - 0x80) * 4096 + (b3 - 0x80) * 64 + (b4 - 0x80)) :: ·)
        else none
      | _ => none
    else none

/-- Encode a list of code points. -/
def utf8EncodeCps (cs : List Nat) : List Nat := cs.flatMap utf8EncodeCp

/-- Decode a byte list into code points (enough fuel for every input). -/
def utf8DecodeBytes (bs : List Nat) : Option (List Nat) :=
  utf8DecodeAux bs.length bs

/-! ### String level codec (Lean `Char` carries unicode scalar validity). -/

/-- Python `s.encode("utf8")` for a unicode string. -/
def utf8Str (s : String) : List Nat := utf8EncodeCps (s.data.map Char.toNat)

/-- Turn a decoded code point back into a `Char`, if it is a unicode scalar. -/
def cpChar (n : Nat) : Option Char :=
  if n.isValidChar then some (Char.ofNat n) else none

/-- Python `b.decode("utf8")` for a byte string. -/
def utf8DecodeStr (bs : List Nat) : Option String := do
  let cs ← utf8DecodeBytes bs
  let chars ← cs.mapM cpChar
  pure (String.mk chars)

/-! ### ASCII fixed-width codec: numpy `astype` between `<U…` and `<S256`
columns of a record array truncates to 256 bytes and raises outside ASCII. -/

/-- numpy coercion of a unicode column entry to a `<S256` byte entry. -/
def asciiS256 (s : String) : Option (List Nat) :=
  if s.data.all (fun c => c.toNat < 128) then some ((s.data.map Char.toNat).take 256)
  else none

/-- numpy coercion of a `<S…` byte entry to a `<U256` unicode entry. -/
def asciiU256 (bs : List Nat) : Option String :=
  if bs.all (fun b => b < 128) then some (String.mk ((bs.take 256).map Char.ofNat))
  else none

/-! ### Data model

A schema instance binds declared, typed fields to values.  The field kinds
cover the trait types the repository uses (`Float`/`CStr` casting scalars,
`Array` of numbers, of unicode strings, or holding a structured record
array, and `ArrayOrNone`).  `Value` also has the transient shapes produced
by the storage back ends (0-d arrays from `np.load`, byte-string arrays
from HDF5). -/

/-- One column of a structured record array (`np.recarray`). -/
inductive Col
  | ints (xs : List Int)
  | strs (ss : List String)
  | bytes (bs : List (List Nat))
deriving DecidableEq

/-- A trait value. -/
inductive Value
  | none
  | num (n : Int)
  | str (s : String)
  | num0d (n : Int)
  | str0d (s : String)
  | none0d
  | arr (xs : List Int)
  | sarr (ss : List String)
  | barr (bs : List (List Nat))
  | recarr (cols : List (String × Col))
  | pyobj -- any other Python object (e.g. a nested structure out of JSON)
deriving DecidableEq

/-- The declared trait type of a field. -/
inductive Kind
  | cnum
  | cstr
  | anum
  | astr
  | arec
  | aon
deriving DecidableEq

/-- `trait.array` introspection flag. -/
def Kind.isArray : Kind → Bool
  | .cnum => false
  | .cstr => false
  | _ => true

/-- The declared default: the value a never-assigned trait holds. -/
def Kind.dflt : Kind → Value
  | .cnum => .num 0
  | .cstr => .str ""
  | .anum => .arr []
  | .astr => .sarr []
  | .arec => .arr []
  | .aon  => .none

/-- Assignment through the traits facility (`setattr` validation and the
casting/coercion the repository relies on); `Option.none` is a `TraitError`. -/
def Kind.coerce : Kind → Value → Option Value
  | .cnum, .num n => some (.num n)
  | .cnum, .num0d n => some (.num n)
  | .cstr, .str s => some (.str s)
  | .cstr, .str0d s => some (.str s)
  | .anum, .arr xs => some (.arr xs)
  | .astr, .sarr ss => some (.sarr ss)
  | .astr, .arr [] => some (.sarr [])
  | .arec, .recarr cs => some (.recarr cs)
  | .aon, .none => some .none
  | .aon, .none0d => some .none0d
  | .aon, .arr xs => some (.arr xs)
  | .aon, .sarr ss => some (.sarr ss)
  | .aon, .recarr cs => some (.recarr cs)
  | _, _ => Option.none

/-- Per-field static metadata (trait kind and optional `desc` string). -/
structure FieldDecl where
  kind : Kind
  desc : Option String
deriving DecidableEq

/-- A schema class: class name, defining module, ordered field declarations. -/
structure SchemaClass where
  name : String
  modName : String
  decl : List (String × FieldDecl)
deriving DecidableEq

/-- A schema instance: its class and the current value of every visible
trait, in declaration order. -/
structure Inst where
  cls : SchemaClass
  fields : List (String × FieldDecl × Value)
deriving DecidableEq

/-- The instance's field rows agree with its class declaration and field
names are distinct. -/
def Inst.wf (inst : Inst) : Prop :=
  inst.fields.map (fun f => (f.1, f.2.1)) = inst.cls.decl ∧
    (inst.cls.decl.map Prod.fst).Nodup

instance (inst : Inst) : Decidable inst.wf := by
  unfold Inst.wf
  exact instDecidableAnd

/-- `Schema.visible_traits()`. -/
def visibleTraits (inst : Inst) : List String := inst.fields.map (·.1)

/-- `Schema.to_dict()`. -/
def toDict (inst : Inst) : List (String × Value) :=
  inst.fields.map (fun f => (f.1, f.2.2))

/-- Association-list lookup (Python attribute/dict access by name). -/
def lookupAssoc {α : Type} (l : List (String × α)) (k : String) : Option α :=
  (l.find? (fun kv => kv.1 == k)).map (·.2)

/-- `getattr` on a loaded instance. -/
def getField (inst : Inst) (k : String) : Option Value :=
  (inst.fields.find? (fun f => f.1 == k)).map (fun f => f.2.2)

/-- `Schema.__eq__` on one trait value: scalars by equality; equal-length
arrays compare elementwise, which for the shapes here coincides with list
equality; differing kinds or lengths compare unequal. -/
def valueEq (this that : Value) : Bool := this == that

/-- `Schema.__eq__`: every visible trait of `a` must compare equal on `b`. -/
def schemaEq (a b : Inst) : Bool :=
  a.fields.all (fun f =>
    match getField b f.1 with
    | some w => valueEq f.2.2 w
    | Option.none => false)

/-- Construction failure modes of `Schema.__init__`. -/
inductive ConstructErr
  | traitError (key : String)
  | unknownField (key : String)
deriving DecidableEq

/-- `Schema.__init__(**kwargs)`: `HasTraits.__init__` assigns every keyword
(raising `TraitError` on the first declared field whose value does not
coerce), then the explicit loop raises `RuntimeError` — the unknown-field
error — for the first keyword not among the declared traits. -/
def construct (cls : SchemaClass) (kwargs : List (String × Value)) :
    Except ConstructErr Inst :=
  match kwargs.find? (fun kv =>
      match lookupAssoc cls.decl kv.1 with
      | some d => (d.kind.coerce kv.2).isNone
      | Option.none => false) with
  | some kv => .error (.traitError kv.1)
  | Option.none =>
    match kwargs.find? (fun kv => (lookupAssoc cls.decl kv.1).isNone) with
    | some kv => .error (.unknownField kv.1)
    | Option.none =>
      .ok ⟨cls, cls.decl.map (fun nd =>
        (nd.1, nd.2,
          ((lookupAssoc kwargs nd.1).bind (nd.2.kind.coerce)).getD nd.2.kind.dflt))⟩

/-! ### numpy archive format (`to_npz` / `from_npz`) -/

/-- `np.asanyarray`, applied by `np.savez` to every keyword value: scalars
become 0-d arrays; `None` is stored as a 0-d object array. -/
def asAnyArray : Value → Value
  | .num n => .num0d n
  | .str s => .str0d s
  | .none => .none0d
  | v => v

/-- `Schema.to_npz`: `np.savez(filename, **self.to_dict())` — every visible
trait is written, whether populated or not. -/
def toNpz (inst : Inst) : List (String × Value) :=
  (toDict inst).map (fun kv => (kv.1, asAnyArray kv.2))

/-- `Schema.from_npz`: read all stored keys and construct `cls(**attrs)`. -/
def fromNpz (cls : SchemaClass) (stored : List (String × Value)) :
    Except ConstructErr Inst :=
  construct cls stored

/-! ### HDF5 format (`to_hdf` / `from_hdf`) -/

/-- A named HDF5 dataset: stored data, the mandatory `type` attribute and
the optional `desc` attribute. -/
structure Dset where
  data : Value
  typeAttr : String
  desc : Option String
deriving DecidableEq

/-- An HDF5 file: datasets plus the root `classname` / `python_module`
attributes. -/
structure HFile where
  dsets : List (String × Dset)
  classname : String
  pythonModule : String
deriving DecidableEq

/-- Failure modes of the HDF5 round trip. -/
inductive HdfErr
  | valueError
  | unicodeError
  | traitError (key : String)
deriving DecidableEq

/-- Observable file-system side effects of `to_hdf`. -/
inductive HEvent
  | openFile
  | createDataset (name : String)
deriving DecidableEq

/-- Python `str(type(data))` for the data actually handed to
`create_dataset` (a unicode array has been replaced by a `list` of bytes
at that point). -/
def typeStr : Value → String
  | .recarr _ => "<class \x27numpy.recarray\x27>"
  | .barr _ => "<class \x27list\x27>"
  | .num _ => "<class \x27float\x27>"
  | .str _ => "<class \x27str\x27>"
  | _ => "<class \x27numpy.ndarray\x27>"

/-- The `type` attribute value that marks a structured record array. -/
def recarrayTypeStr : String := "<class \x27numpy.recarray\x27>"

/-- The unicode work-around in `Schema.to_hdf` (branch guarded by
`trait.array is True and encode_string_arrays`): an array of dtype char
`U` is replaced by the list of its elements encoded to bytes; a record
array is `astype`-coerced so that every unicode column becomes `<S256`. -/
def hdfEncodeField (isArray : Bool) (encodeStringArrays : Bool) (v : Value) :
    Except HdfErr Value :=
  if isArray && encodeStringArrays then
    match v with
    | .sarr ss => .ok (.barr (ss.map utf8Str))
    | .recarr cols =>
      match cols.mapM (fun nc =>
          match nc.2 with
          | Col.strs ss => (ss.mapM asciiS256).map (fun bs => (nc.1, Col.bytes bs))
          | c => some (nc.1, c)) with
      | some cols2 => .ok (.recarr cols2)
      | Option.none => .error .unicodeError
    | v => .ok v
  else .ok v

/-- The per-field loop of `Schema.to_hdf`: skip unpopulated (`None`)
traits, apply the unicode work-around, then `create_dataset` with
`chunks = trait.array`; `h5py` raises `ValueError` when the `lzf`
compression is combined with a non-null `compression_opts` on a chunked
dataset. -/
def toHdfFields (compression : Option String) (compressionOpts : Option Int)
    (encodeStringArrays : Bool) :
    List (String × FieldDecl × Value) →
      List HEvent × Except HdfErr (List (String × Dset))
  | [] => ([], .ok [])
  | (name, d, v) :: rest =>
    if v = Value.none then
      toHdfFields compression compressionOpts encodeStringArrays rest
    else
      match hdfEncodeField d.kind.isArray encodeStringArrays v with
      | .error e => ([], .error e)
      | .ok data =>
        if d.kind.isArray && compression == some "lzf" && compressionOpts.isSome then
          ([], .error .valueError)
        else
          match toHdfFields compression compressionOpts encodeStringArrays rest with
          | (evs, res) =>
            (HEvent.createDataset name :: evs,
              res.map (fun ds => (name, (⟨data, typeStr data, d.desc⟩ : Dset)) :: ds))

/-- `Schema.to_hdf`: `h5py.File(filename, mode)` creates/opens the target
file, then each field is stored; the root attributes record the class
name and module. -/
def toHdf (inst : Inst) (_mode : String) (compression : Option String)
    (compressionOpts : Option Int) (encodeStringArrays : Bool) :
    List HEvent × Except HdfErr HFile :=
  match toHdfFields compression compressionOpts encodeStringArrays inst.fields with
  | (evs, res) =>
    (HEvent.openFile :: evs,
      res.map (fun ds => ⟨ds, inst.cls.name, inst.cls.modName⟩))

/-- The string-decoding branch of `Schema.from_hdf`: byte-string arrays
(dtype char `S`) are decoded elementwise; datasets whose `type` attribute
names `np.recarray` get their byte columns `astype`-coerced to `<U256`. -/
def hdfDecodeField (isArray : Bool) (decodeStringArrays : Bool)
    (typeAttr : String) (v : Value) : Except HdfErr Value :=
  if isArray && decodeStringArrays then
    match v with
    | .barr bs =>
      match bs.mapM utf8DecodeStr with
      | some ss => .ok (.sarr ss)
      | Option.none => .error .unicodeError
    | v =>
      if typeAttr == recarrayTypeStr then
        match v with
        | .recarr cols =>
          match cols.mapM (fun nc =>
              match nc.2 with
              | Col.bytes bs => (bs.mapM asciiU256).map (fun ss => (nc.1, Col.strs ss))
              | c => some (nc.1, c)) with
          | some cols2 => .ok (.recarr cols2)
          | Option.none => .error .unicodeError
        | v => .ok v
      else .ok v
  else .ok v

/-- The loop body of `Schema.from_hdf` for one visible trait: a trait
absent from the file keeps its declared default; a present dataset is
decoded and assigned through the traits facility. -/
def fromHdfField (hfile : HFile) (decodeStringArrays : Bool)
    (nd : String × FieldDecl) : Except HdfErr (String × FieldDecl × Value) :=
  match lookupAssoc hfile.dsets nd.1 with
  | Option.none => .ok (nd.1, nd.2, nd.2.kind.dflt)
  | some ds =>
    match hdfDecodeField nd.2.kind.isArray decodeStringArrays ds.typeAttr ds.data with
    | .error e => .error e
    | .ok data =>
      match nd.2.kind.coerce data with
      | some v => .ok (nd.1, nd.2, v)
      | Option.none => .error (.traitError nd.1)

/-- `Schema.from_hdf`: construct an empty instance, then run the loop body
over every visible trait. -/
def fromHdf (cls : SchemaClass) (hfile : HFile) (decodeStringArrays : Bool) :
    Except HdfErr Inst :=
  (cls.decl.mapM (fromHdfField hfile decodeStringArrays)).map
    (fun fields => ⟨cls, fields⟩)

/-! ### JSON text format (`to_json` / `from_json`)

`json.dumps` / `json.loads` are modelled textually for the documents this
encoder emits: one compact top-level object whose values are scalars
(null, number, string) or flat arrays of scalars. -/

/-- JSON values. -/
inductive Json
  | jnull
  | jnum (n : Int)
  | jstr (s : String)
  | jarr (elems : List Json)

/-- Failure modes of `to_json`. -/
inductive JsonErr
  | recarrayUnsupported
  | notSerializable
deriving DecidableEq

/-- `_NumpyJsonEncoder.default` together with the base encoder: a record
array raises `RuntimeError`; any other ndarray is written via
`tolist()`; scalars pass through. -/
def valueToJson : Value → Except JsonErr Json
  | .none => .ok .jnull
  | .num n => .ok (.jnum n)
  | .str s => .ok (.jstr s)
  | .num0d n => .ok (.jnum n)
  | .str0d s => .ok (.jstr s)
  | .none0d => .ok .jnull
  | .arr xs => .ok (.jarr (xs.map .jnum))
  | .sarr ss => .ok (.jarr (ss.map .jstr))
  | .barr _ => .error .notSerializable
  | .recarr _ => .error .recarrayUnsupported
  | .pyobj => .error .notSerializable

/-- Decimal digits of a natural number, accumulator style. -/
def natDigitsAux : Nat → Nat → List Char → List Char
  | 0, _, acc => acc
  | fuel + 1, n, acc =>
    if n < 10 then Char.ofNat (48 + n % 10) :: acc
    else natDigitsAux fuel (n / 10) (Char.ofNat (48 + n % 10) :: acc)

/-- Decimal digits of a natural number, most significant first. -/
def natChars (n : Nat) : List Char := natDigitsAux (n + 1) n []

/-- Decimal rendering of an integer as `json.dumps` prints it. -/
def renderInt : Int → List Char
  | .ofNat m => natChars m
  | .negSucc m => '-' :: natChars (m + 1)

/-- A JSON string literal (the strings we render contain no character that
would need escaping; see `jsonStrOk`). -/
def renderStr (s : String) : List Char := '"' :: s.data ++ ['"']

/-- Strings the textual model renders/parses exactly: no quote, no
backslash, no control characters needing escapes. -/
def jsonStrOk (s : String) : Bool :=
  s.data.all (fun c => c != '"' && c != '\\' && 0x20 ≤ c.toNat)

/-- Render a scalar JSON value (`null`, number or string). -/
def renderScalar : Json → List Char
  | .jnull => ['n', 'u', 'l', 'l']
  | .jnum n => renderInt n
  | .jstr s => renderStr s
  | .jarr _ => []

/-- Comma-separated concatenation (`json.dumps` with compact separators). -/
def sepByComma : List (List Char) → List Char
  | [] => []
  | [p] => p
  | p :: p2 :: ps => p ++ ',' :: sepByComma (p2 :: ps)

/-- Render a field value: a flat array of scalars, or a scalar. -/
def renderFieldVal : Json → List Char
  | .jarr es => '[' :: sepByComma (es.map renderScalar) ++ [']']
  | j => renderScalar j

/-- Render one `"key":value` object member. -/
def renderPair (kv : String × Json) : List Char :=
  renderStr kv.1 ++ ':' :: renderFieldVal kv.2

/-- Render the top-level object. -/
def renderTop (kvs : List (String × Json)) : List Char :=
  '\x7b' :: sepByComma (kvs.map renderPair) ++ ['\x7d']

/-- One visible trait as a JSON object member. -/
def toJsonField (f : String × FieldDecl × Value) : Except JsonErr (String × Json) :=
  (valueToJson f.2.2).map (fun j => (f.1, j))

/-- `Schema.to_json()`: every visible trait is serialized; returns the JSON
string (this method writes no file). -/
def toJson (inst : Inst) : Except JsonErr String :=
  (inst.fields.mapM toJsonField).map (fun kvs => String.mk (renderTop kvs))

/-- Decimal digit test. -/
def isDig (c : Char) : Bool := 48 ≤ c.toNat && c.toNat ≤ 57

/-- Numeric value of a run of decimal digits. -/
def readNat (ds : List Char) : Nat := ds.foldl (fun a c => a * 10 + (c.toNat - 48)) 0

/-- Parse a natural number (one or more digits). -/
def parseNat (input : List Char) : Option (Nat × List Char) :=
  match input.span isDig with
  | (ds, rest) => if ds.isEmpty then Option.none else some (readNat ds, rest)

/-- Parse an optionally negated integer. -/
def parseInt (input : List Char) : Option (Int × List Char) :=
  match input with
  | c :: rest =>
    if c = '-' then (parseNat rest).map (fun nr => (-(nr.1 : Int), nr.2))
    else (parseNat (c :: rest)).map (fun nr => ((nr.1 : Int), nr.2))
  | [] => Option.none

/-- Parse a string literal (no escape sequences; see `jsonStrOk`). -/
def parseStr (input : List Char) : Option (String × List Char) :=
  match input with
  | c :: rest =>
    if c = '"' then
      match rest.span (fun ch => ch != '"') with
      | (content, q :: rest2) =>
        if q = '"' then some (String.mk content, rest2) else Option.none
      | (_, []) => Option.none
    else Option.none
  | [] => Option.none

/-- Parse a scalar JSON value. -/
def parseScalar (input : List Char) : Option (Json × List Char) :=
  match input with
  | c :: rest =>
    if c = '"' then (parseStr (c :: rest)).map (fun sr => (Json.jstr sr.1, sr.2))
    else if c = 'n' then
      match c :: rest with
      | 'n' :: 'u' :: 'l' :: 'l' :: rest2 => some (Json.jnull, rest2)
      | _ => Option.none
    else (parseInt (c :: rest)).map (fun nr => (Json.jnum nr.1, nr.2))
  | [] => Option.none

/-- Parse the scalar elements of an array, after the opening bracket; the
fuel bounds the number of elements. -/
def parseElemsAux : Nat → List Char → Option (List Json × List Char)
  | _, [] => Option.none
  | fuel, c :: rest =>
    if c = ']' then some ([], rest)
    else
      match fuel with
      | 0 => Option.none
      | fuel + 1 => do
        let (j, rest1) ← parseScalar (c :: rest)
        match rest1 with
        | ',' :: rest2 => (parseElemsAux fuel rest2).map (fun er => (j :: er.1, er.2))
        | ']' :: rest2 => some ([j], rest2)
        | _ => Option.none

/-- Parse a field value: a flat array or a scalar. -/
def parseFieldVal (input : List Char) : Option (Json × List Char) :=
  match input with
  | c :: rest =>
    if c = '[' then (parseElemsAux rest.length rest).map (fun er => (Json.jarr er.1, er.2))
    else parseScalar (c :: rest)
  | [] => Option.none

/-- Parse the key/value pairs of the top-level object, after the opening
brace; the fuel bounds the number of pairs. -/
def parsePairsAux : Nat → List Char → Option (List (String × Json) × List Char)
  | _, [] => Option.none
  | fuel, c :: rest =>
    if c = '\x7d' then some ([], rest)
    else
      match fuel with
      | 0 => Option.none
      | fuel + 1 => do
        let (k, rest1) ← parseStr (c :: rest)
        match rest1 with
        | ':' :: rest2 => do
          let (v, rest3) ← parseFieldVal rest2
          match rest3 with
          | ',' :: rest4 => (parsePairsAux fuel rest4).map (fun pr => ((k, v) :: pr.1, pr.2))
          | '\x7d' :: rest4 => some ([(k, v)], rest4)
          | _ => Option.none
        | _ => Option.none

/-- `json.loads` for the documents at hand: a single top-level object, fully
consumed. -/
def jsonLoads (s : String) : Option (List (String × Json)) :=
  match s.data with
  | c :: rest =>
    if c = '\x7b' then
      match parsePairsAux rest.length rest with
      | some (kvs, []) => some kvs
      | _ => Option.none
    else Option.none
  | [] => Option.none

/-- The Python value a parsed JSON value becomes (`json.loads` output):
null is `None`, homogeneous lists arrive as lists the traits facility can
coerce; anything else is an object no trait accepts. -/
def jsonToValue : Json → Value
  | .jnull => .none
  | .jnum n => .num n
  | .jstr s => .str s
  | .jarr es =>
    match es.mapM (fun j => match j with | Json.jnum n => some n | _ => Option.none) with
    | some xs => .arr xs
    | Option.none =>
      match es.mapM (fun j => match j with | Json.jstr s => some s | _ => Option.none) with
      | some ss => .sarr ss
      | Option.none => .pyobj

/-- Failure modes of `from_json`. -/
inductive JErr
  | parseError
  | fileNotFound
  | constructErr (e : ConstructErr)
deriving DecidableEq

/-- The argument of `from_json`: a `str`, or an open readable stream whose
contents are `s`. -/
inductive JsonInput
  | text (s : String)
  | stream (s : String)
deriving DecidableEq

/-- Parse JSON content and construct `cls(**loaded)`. -/
def fromJsonData (cls : SchemaClass) (content : String) : Except JErr Inst := do
  let kvs ←
    match jsonLoads content with
    | some kvs => pure kvs
    | Option.none => throw JErr.parseError
  (construct cls (kvs.map (fun kv => (kv.1, jsonToValue kv.2)))).mapError .constructErr

/-- `Schema.from_json(data)`: a non-`str` argument is read with
`json.load`; a `str` argument is handed to `json.loads`, i.e. it is always
treated as JSON content. -/
def fromJson (cls : SchemaClass) : JsonInput → Except JErr Inst
  | .text s => fromJsonData cls s
  | .stream s => fromJsonData cls s

/-- Modelled from the spec (section 4.4 Decode): "accept either a path to a
text source or an already-open readable stream; parse into a flat mapping;
construct a new SchemaInstance from that mapping".  Under this reading a
string argument is a path resolved against the file system `fs`.  This
definition follows the spec's words and exists only to be compared with
`fromJson`, which follows the code. -/
def fromJsonSpec (fs : String → Option String) (cls : SchemaClass) :
    JsonInput → Except JErr Inst
  | .text p =>
    match fs p with
    | some content => fromJsonData cls content
    | Option.none => .error .fileNotFound
  | .stream s => fromJsonData cls s

/-! ### Format dispatch (`save` / `load`) -/

/-- `os.path.splitext(filename)[1]`: the extension of the basename, from
its last dot; a dot that begins the basename starts no extension. -/
def splitextExt (filename : String) : String :=
  let base := (filename.data.reverse.takeWhile (fun c => c != '/')).reverse
  let tl := base.reverse.takeWhile (fun c => c != '.')
  if tl.length + 1 < base.length then String.mk ('.' :: tl.reverse) else ""

/-- On-disk content, per format. -/
inductive FileContent
  | npz (entries : List (String × Value))
  | h5 (f : HFile)
  | text (s : String)
deriving DecidableEq

/-- Failure modes of `Schema.save`. -/
inductive SaveErr
  | unsupportedFormat (ext : String)
  | hdf (e : HdfErr)
  | json (e : JsonErr)
deriving DecidableEq

/-- Observable file-system side effects of `save` / `load`. -/
inductive FEvent
  | fileCreated (name : String)
  | fileRead (name : String)
deriving DecidableEq

/-- `Schema.save`: dispatch on the file extension (an unrecognized one
raises `KeyError(ext)` before anything is opened); the `.json` branch opens
the output file for writing before `to_json` runs, so the file exists even
when encoding then fails. -/
def save (inst : Inst) (filename : String) :
    List FEvent × Except SaveErr FileContent :=
  let ext := splitextExt filename
  if ext = ".npz" then
    ([.fileCreated filename], .ok (.npz (toNpz inst)))
  else if ext = ".h5" then
    ([.fileCreated filename],
      ((toHdf inst "w" Option.none Option.none true).2.map .h5).mapError .hdf)
  else if ext = ".json" then
    ([.fileCreated filename], ((toJson inst).map .text).mapError .json)
  else ([], .error (.unsupportedFormat ext))

/-- Failure modes of `Schema.load`. -/
inductive LoadErr
  | unsupportedFormat (ext : String)
  | badFile
  | constructErr (e : ConstructErr)
  | hdf (e : HdfErr)
  | json (e : JErr)
deriving DecidableEq

/-- `Schema.load`: counterpart to `save`; the `.json` branch opens the file
and hands the stream to `from_json`. -/
def load (cls : SchemaClass) (filename : String) (content : FileContent) :
    List FEvent × Except LoadErr Inst :=
  let ext := splitextExt filename
  if ext = ".npz" then
    ([.fileRead filename],
      match content with
      | .npz entries => (fromNpz cls entries).mapError .constructErr
      | _ => .error .badFile)
  else if ext = ".h5" then
    ([.fileRead filename],
      match content with
      | .h5 f => (fromHdf cls f true).mapError .hdf
      | _ => .error .badFile)
  else if ext = ".json" then
    ([.fileRead filename],
      match content with
      | .text s => (fromJson cls (.stream s)).mapError .json
      | _ => .error .badFile)
  else ([], .error (.unsupportedFormat ext))

/-! ### SHA-1 (FIPS 180-1), modelling `hashlib.sha1(key.encode()).hexdigest()` -/

/-- Truncation to a 32-bit word. -/
def w32 (n : Nat) : Nat := n % 4294967296

/-- Left rotation of a 32-bit word by `b` bits (`b ≤ 32`). -/
def rotl32 (b n : Nat) : Nat := w32 (n * 2 ^ b + n / 2 ^ (32 - b))

/-- Big-endian word value of a byte list. -/
def beWord (bs : List Nat) : Nat := bs.foldl (fun a b => a * 256 + b) 0

/-- The sixteen 32-bit big-endian words of a 64-byte chunk. -/
def words16 (chunk : List Nat) : List Nat :=
  (List.range 16).map (fun i => beWord ((chunk.drop (4 * i)).take 4))

/-- Extend sixteen words to the eighty-word message schedule. -/
def sha1Extend (ws : List Nat) : List Nat :=
  (List.range 64).foldl (fun acc _ =>
    let n := acc.length
    acc ++ [rotl32 1 (((acc.getD (n - 3) 0) ^^^ (acc.getD (n - 8) 0)) ^^^
      ((acc.getD (n - 14) 0) ^^^ (acc.getD (n - 16) 0)))]) ws

/-- The SHA-1 round function. -/
def sha1F (t b c d : Nat) : Nat :=
  if t < 20 then (b &&& c) ||| ((4294967295 - b) &&& d)
  else if t < 40 then (b ^^^ c) ^^^ d
  else if t < 60 then ((b &&& c) ||| (b &&& d)) ||| (c &&& d)
  else (b ^^^ c) ^^^ d

/-- The SHA-1 round constants. -/
def sha1K (t : Nat) : Nat :=
  if t < 20 then 0x5a827999
  else if t < 40 then 0x6ed9eba1
  else if t < 60 then 0x8f1bbcdc
  else 0xca62c1d6

/-- Compress one 64-byte chunk into the running state. -/
def sha1Compress (h : Nat × Nat × Nat × Nat × Nat) (chunk : List Nat) :
    Nat × Nat × Nat × Nat × Nat :=
  let ws := sha1Extend (words16 chunk)
  match (List.range 80).foldl (fun st t =>
      match st with
      | (a, b, c, d, e) =>
        (w32 (rotl32 5 a + sha1F t b c d + e + sha1K t + ws.getD t 0),
          a, rotl32 30 b, c, d)) h with
  | (a, b, c, d, e) =>
    (w32 (h.1 + a), w32 (h.2.1 + b), w32 (h.2.2.1 + c), w32 (h.2.2.2.1 + d),
      w32 (h.2.2.2.2 + e))

/-- Message padding: a `0x80` byte, zeros, then the bit length, big endian,
to a multiple of 64 bytes. -/
def sha1Pad (ms : List Nat) : List Nat :=
  ms ++ 0x80 :: List.replicate ((119 - ms.length % 64) % 64) 0 ++
    [56, 48, 40, 32, 24, 16, 8, 0].map (fun i => 8 * ms.length / 2 ^ i % 256)

/-- Split into 64-byte chunks (the fuel bounds the number of chunks). -/
def chunks64Aux : Nat → List Nat → List (List Nat)
  | 0, _ => []
  | fuel + 1, l => if l.isEmpty then [] else l.take 64 :: chunks64Aux fuel (l.drop 64)

/-- The SHA-1 digest of a byte message, as five 32-bit words. -/
def sha1Digest (ms : List Nat) : Nat × Nat × Nat × Nat × Nat :=
  let padded := sha1Pad ms
  (chunks64Aux padded.length padded).foldl sha1Compress
    (0x67452301, 0xefcdab89, 0x98badcfe, 0x10325476, 0xc3d2e1f0)

/-- Lowercase hex digit. -/
def hexDigitChar (d : Nat) : Char :=
  if d < 10 then Char.ofNat (48 + d) else Char.ofNat (87 + d)

/-- Eight lowercase hex digits of a 32-bit word, most significant first. -/
def word8Hex (n : Nat) : List Char :=
  (List.range 8).map (fun i => hexDigitChar (n / 2 ^ (4 * (7 - i)) % 16))

/-- `hashlib.sha1(key.encode()).hexdigest()`. -/
def sha1Hex (key : String) : String :=
  match sha1Digest (utf8Str key) with
  | (a, b, c, d, e) =>
    String.mk (word8Hex a ++ word8Hex b ++ word8Hex c ++ word8Hex d ++ word8Hex e)

/-! ### Bundler (`io.py`) -/

/-- Failure modes of `bundle_schema`. -/
inductive BundleErr
  | unsupportedArchiveFormat
  | saveFailed (e : SaveErr)
deriving DecidableEq

/-- One entry of the bundle index (`index["schema"][key]`). -/
structure IndexEntry where
  filename : String
  classname : String
  modName : String
deriving DecidableEq

/-- The packed archive: staged files plus the `index.json` data. -/
structure Bundle where
  files : List (String × FileContent)
  index : List (String × IndexEntry)
  bundleVersion : Nat
deriving DecidableEq

/-- `BUNDLE_VERSION` in `io.py`. -/
def BUNDLE_VERSION : Nat := 1

/-- One iteration of the staging loop in `bundle_schema`: the entry is
saved under `sha1(key).hexdigest() + "." + format` and its index record
is built. -/
def bundleEntry (format : String) (kv : String × Inst) :
    Except BundleErr ((String × FileContent) × (String × IndexEntry)) :=
  let base := sha1Hex kv.1 ++ "." ++ format
  ((save kv.2 base).2.mapError BundleErr.saveFailed).map
    (fun content =>
      ((base, content), (kv.1, (⟨base, kv.2.cls.name, kv.2.cls.modName⟩ : IndexEntry))))

/-- The body executed inside `with tempdir() as staging_dir`: stage every
entry, then write `index.json`; any exception from `obj.save` propagates
out of the `with` block. -/
def bundleBody (schema : List (String × Inst)) (format : String) :
    Except BundleErr Bundle :=
  (schema.mapM (bundleEntry format)).map
    (fun entries => ⟨entries.map Prod.fst, entries.map Prod.snd, BUNDLE_VERSION⟩)

/-- `tempdir()` as written: `mkdtemp()`, `yield`, `shutil.rmtree(...)`.
Under `contextlib.contextmanager` an exception raised in the `with` body is
re-raised at the `yield`; there is no `try/finally`, so the `rmtree` line
does not run on that path.  The boolean records whether the scratch
directory was removed. -/
def tempdirRun {E A : Type} (body : Except E A) : Except E A × Bool :=
  match body with
  | .ok a => (.ok a, true)
  | .error e => (.error e, false)

/-- Python `outfile.endswith(suffix)`. -/
def strEndsWith (s suffix : String) : Bool := suffix.data.isSuffixOf s.data

/-- `bundle_schema(outfile, schema, format)`: a non-`.zip` output name is
rejected before any directory is allocated; otherwise the staging runs
inside `tempdir()`.  Returns the result, whether a scratch directory was
allocated, and whether it was removed. -/
def bundleSchema (outfile : String) (schema : List (String × Inst))
    (format : String) : Except BundleErr Bundle × Bool × Bool :=
  if ¬ strEndsWith outfile ".zip" then (.error .unsupportedArchiveFormat, false, false)
  else
    match tempdirRun (bundleBody schema format) with
    | (res, cleaned) => (res, true, cleaned)



/-! ### Representability predicates

Each storage format handles only some value shapes faithfully; the
round-trip claims quantify over instances whose fields hold representable
values.  These predicates spell the fragment out, per format. -/

/-- Success test for `Except`. -/
def isOkE {E A : Type} : Except E A → Bool
  | .ok _ => true
  | .error _ => false

/-- A value a user can put into a trait directly (not one of the transient
shapes produced by loading). -/
def userValue : Value → Bool
  | .none => true
  | .num _ => true
  | .str _ => true
  | .arr _ => true
  | .sarr _ => true
  | .recarr _ => true
  | _ => false

/-- Record-array columns the HDF5 `astype` work-around round-trips: numeric
columns, and unicode columns that are ASCII with at most 256 characters
(the fixed `<S256`/`<U256` width). -/
def recColsOk (cols : List (String × Col)) : Bool :=
  cols.all (fun nc =>
    match nc.2 with
    | Col.ints _ => true
    | Col.strs ss => ss.all (fun s => s.data.all (fun c => c.toNat < 128) &&
        decide (s.data.length ≤ 256))
    | Col.bytes _ => false)

/-- Values representable in the numpy archive format for a field of the
given declaration: arrays natively, scalars through casting traits; a
`None` value is not representable (it would be pickled and reload as a 0-d
object array, not as `None`). -/
def npzRep (d : FieldDecl) (v : Value) : Bool :=
  match d.kind, v with
  | .cnum, .num _ => true
  | .cstr, .str _ => true
  | .anum, .arr _ => true
  | .astr, .sarr _ => true
  | .arec, .recarr _ => true
  | .aon, .arr _ => true
  | .aon, .sarr _ => true
  | .aon, .recarr _ => true
  | _, _ => false

/-- Values representable in the HDF5 format for a field of the given
declaration: scalars, numeric arrays, unicode-string arrays (re-encoded
elementwise), record arrays with `recColsOk` columns, and an absent
(`None`) `ArrayOrNone` value, which is skipped and reloads as the declared
default. -/
def h5Rep (d : FieldDecl) (v : Value) : Bool :=
  match d.kind, v with
  | .cnum, .num _ => true
  | .cstr, .str _ => true
  | .anum, .arr _ => true
  | .astr, .sarr _ => true
  | .arec, .recarr cols => recColsOk cols
  | .aon, .none => true
  | .aon, .arr _ => true
  | .aon, .sarr _ => true
  | .aon, .recarr cols => recColsOk cols
  | _, _ => false

/-- Values representable in the JSON text format for a field of the given
declaration: numbers, strings needing no escapes, numeric arrays, and
nonempty string arrays (an empty string array reloads as an empty numeric
array); `None` in an `ArrayOrNone` field maps to `null` and back.  Record
arrays are not representable at all. -/
def jsonRep (d : FieldDecl) (v : Value) : Bool :=
  match d.kind, v with
  | .cnum, .num _ => true
  | .cstr, .str s => jsonStrOk s
  | .anum, .arr _ => true
  | .astr, .sarr ss => ss.all jsonStrOk
  | .aon, .none => true
  | .aon, .arr _ => true
  | .aon, .sarr ss => !ss.isEmpty && ss.all jsonStrOk
  | _, _ => false

/-- A scalar JSON value the textual model round-trips. -/
def scalarOk : Json → Bool
  | .jnull => true
  | .jnum _ => true
  | .jstr s => jsonStrOk s
  | .jarr _ => false

/-- A field JSON value the textual model round-trips. -/
def fieldOk : Json → Bool
  | .jarr es => es.all scalarOk
  | j => scalarOk j

/-- The JSON value `to_json` produces for each representable trait value
(the successful branches of `valueToJson`; auxiliary description used by
the round-trip lemmas). -/
def jsonValOf : Value → Json
  | .none => .jnull
  | .num n => .jnum n
  | .str s => .jstr s
  | .num0d n => .jnum n
  | .str0d s => .jstr s
  | .none0d => .jnull
  | .arr xs => .jarr (xs.map .jnum)
  | .sarr ss => .jarr (ss.map .jstr)
  | _ => .jnull

/-- The datasets `to_hdf` writes for a field list, when no compression is
requested (auxiliary description used by the round-trip lemmas; the error
case is unreachable for representable fields). -/
def hdfDsetsOf : List (String × FieldDecl × Value) → List (String × Dset)
  | [] => []
  | (n, d, v) :: rest =>
    if v = Value.none then hdfDsetsOf rest
    else
      match hdfEncodeField d.kind.isArray true v with
      | .ok data => (n, (⟨data, typeStr data, d.desc⟩ : Dset)) :: hdfDsetsOf rest
      | .error _ => hdfDsetsOf rest

/-! ### Lemmas and claim theorems -/

theorem lookupAssoc_of_mem {β : Type} (l : List (String × β))
    (hnd : (l.map Prod.fst).Nodup) (k : String) (b : β) (hmem : (k, b) ∈ l) :
    lookupAssoc l k = some b := by
  induction l with
  | nil => cases hmem
  | cons kv rest ih =>
    simp only [List.map_cons, List.nodup_cons] at hnd
    rcases List.mem_cons.mp hmem with heq | hrest
    · subst heq
      simp [lookupAssoc]
    · have hk : kv.1 ≠ k := by
        intro hkk
        exact hnd.1 (hkk ▸ (List.mem_map.mpr ⟨(k, b), hrest, rfl⟩))
      have : lookupAssoc rest k = some b := ih hnd.2 hrest
      simp only [lookupAssoc, List.find?_cons] at this ⊢
      have hbeq : (kv.1 == k) = false := beq_false_of_ne hk
      rw [hbeq]
      exact this

theorem lookupAssoc_eq_none {β : Type} (l : List (String × β)) (k : String)
    (h : ∀ b, (k, b) ∉ l) : lookupAssoc l k = Option.none := by
  induction l with
  | nil => rfl
  | cons kv rest ih =>
    have hk : (kv.1 == k) = false := by
      apply beq_false_of_ne
      intro hkk
      exact h kv.2 (by rw [← hkk]; exact List.mem_cons_self kv rest)
    simp only [lookupAssoc, List.find?_cons, hk]
    exact ih (fun b hb => h b (List.mem_cons_of_mem kv hb))

theorem getField_of_mem (inst : Inst) (hnd : (inst.fields.map Prod.fst).Nodup)
    (n : String) (d : FieldDecl) (v : Value) (hmem : (n, d, v) ∈ inst.fields) :
    getField inst n = some v := by
  obtain ⟨cls, fields⟩ := inst
  simp only [getField]
  induction fields with
  | nil => cases hmem
  | cons f rest ih =>
    simp only [List.map_cons, List.nodup_cons] at hnd
    rcases List.mem_cons.mp hmem with heq | hrest
    · subst heq
      simp
    · have hk : f.1 ≠ n := by
        intro hkk
        exact hnd.1 (hkk ▸ (List.mem_map.mpr ⟨(n, d, v), hrest, rfl⟩))
      have hbeq : (f.1 == n) = false := beq_false_of_ne hk
      simp only [List.find?_cons, hbeq]
      exact ih hnd.2 hrest

theorem exceptMapM_ok_of_forall {α β ε : Type} (f : α → Except ε β) (g : α → β)
    (l : List α) (h : ∀ a ∈ l, f a = .ok (g a)) : l.mapM f = .ok (l.map g) := by
  induction l with
  | nil => rfl
  | cons a l ih =>
    rw [List.mapM_cons, h a (List.mem_cons_self a l),
      ih (fun x hx => h x (List.mem_cons_of_mem a hx))]
    rfl

theorem exceptMapM_mem_ok {α β ε : Type} (f : α → Except ε β) :
    ∀ (l : List α) (rows : List β), l.mapM f = .ok rows →
      ∀ a ∈ l, ∃ r ∈ rows, f a = .ok r := by
  intro l
  induction l with
  | nil => intro rows _ a ha; cases ha
  | cons a l ih =>
    intro rows hrows x hx
    rw [List.mapM_cons] at hrows
    cases hfa : f a with
    | error e => rw [hfa] at hrows; cases hrows
    | ok r =>
      rw [hfa] at hrows
      cases hrest : l.mapM f with
      | error e =>
        rw [hrest] at hrows
        cases hrows
      | ok rs =>
        rw [hrest] at hrows
        have hrows2 : rows = r :: rs := by
          cases hrows
          rfl
        subst hrows2
        rcases List.mem_cons.mp hx with heq | hmem
        · subst heq
          exact ⟨r, List.mem_cons_self r rs, hfa⟩
        · obtain ⟨r2, hr2, hfr2⟩ := ih rs hrest x hmem
          exact ⟨r2, List.mem_cons_of_mem r hr2, hfr2⟩

theorem exceptMapM_all_ok {α β ε : Type} (f : α → Except ε β) :
    ∀ (l : List α) (rows : List β), l.mapM f = .ok rows →
      ∀ r ∈ rows, ∃ a ∈ l, f a = .ok r := by
  intro l
  induction l with
  | nil =>
    intro rows hrows r hr
    cases hrows
    cases hr
  | cons a l ih =>
    intro rows hrows r hr
    rw [List.mapM_cons] at hrows
    cases hfa : f a with
    | error e => rw [hfa] at hrows; cases hrows
    | ok r0 =>
      rw [hfa] at hrows
      cases hrest : l.mapM f with
      | error e => rw [hrest] at hrows; cases hrows
      | ok rs =>
        rw [hrest] at hrows
        have hrows2 : rows = r0 :: rs := by
          cases hrows
          rfl
        subst hrows2
        rcases List.mem_cons.mp hr with heq | hmem
        · subst heq
          exact ⟨a, List.mem_cons_self a l, hfa⟩
        · obtain ⟨a2, ha2, hfa2⟩ := ih rs hrest r hmem
          exact ⟨a2, List.mem_cons_of_mem a ha2, hfa2⟩

theorem optionMapM_of_forall {α β : Type} (f : α → Option β) (g : α → β)
    (l : List α) (h : ∀ a ∈ l, f a = some (g a)) : l.mapM f = some (l.map g) := by
  induction l with
  | nil => rfl
  | cons a l ih =>
    rw [List.mapM_cons, h a (List.mem_cons_self a l),
      ih (fun x hx => h x (List.mem_cons_of_mem a hx))]
    rfl

theorem optionMapM_inverse {α β : Type} (f : α → Option β) (g : β → Option α)
    (l : List α) (h : ∀ a ∈ l, ∃ b, f a = some b ∧ g b = some a) :
    ∃ l2, l.mapM f = some l2 ∧ l2.mapM g = some l := by
  induction l with
  | nil => exact ⟨[], rfl, rfl⟩
  | cons a l ih =>
    obtain ⟨b, hfb, hgb⟩ := h a (List.mem_cons_self a l)
    obtain ⟨l2, hl2, hl2g⟩ := ih (fun x hx => h x (List.mem_cons_of_mem a hx))
    refine ⟨b :: l2, ?_, ?_⟩
    · rw [List.mapM_cons, hfb, hl2]
      rfl
    · rw [List.mapM_cons, hgb, hl2g]
      rfl

theorem utf8DecodeAux_encode_cons (c : Nat) (hc : c < 0x110000) (rest : List Nat)
    (fuel : Nat) :
    utf8DecodeAux (fuel + 1) (utf8EncodeCp c ++ rest) =
      (utf8DecodeAux fuel rest).map (c :: ·) := by
  unfold utf8EncodeCp
  by_cases h1 : c < 0x80
  · simp only [if_pos h1, List.cons_append, List.nil_append, utf8DecodeAux, if_pos h1]
  · by_cases h2 : c < 0x800
    · simp only [if_neg h1, if_pos h2, List.cons_append, List.nil_append, utf8DecodeAux]
      have e1 : ¬ (0xc0 + c / 64 < 0x80) := by omega
      have e2 : ¬ (0xc0 + c / 64 < 0xc0) := by omega
      have e3 : 0xc0 + c / 64 < 0xe0 := by omega
      have e4 : 0x80 ≤ 0x80 + c % 64 ∧ 0x80 + c % 64 < 0xc0 := by omega
      simp only [if_neg e1, if_neg e2, if_pos e3, if_pos e4]
      have : (0xc0 + c / 64 - 0xc0) * 64 + (0x80 + c % 64 - 0x80) = c := by omega
      rw [this]
    · by_cases h3 : c < 0x10000
      · simp only [if_neg h1, if_neg h2, if_pos h3, List.cons_append, List.nil_append,
          utf8DecodeAux]
        have e1 : ¬ (0xe0 + c / 4096 < 0x80) := by omega
        have e2 : ¬ (0xe0 + c / 4096 < 0xc0) := by omega
        have e3 : ¬ (0xe0 + c / 4096 < 0xe0) := by omega
        have e4 : 0xe0 + c / 4096 < 0xf0 := by omega
        have e5 : (0x80 ≤ 0x80 + c / 64 % 64 ∧ 0x80 + c / 64 % 64 < 0xc0) ∧
            (0x80 ≤ 0x80 + c % 64 ∧ 0x80 + c % 64 < 0xc0) := by omega
        simp only [if_neg e1, if_neg e2, if_neg e3, if_pos e4, if_pos e5]
        have : (0xe0 + c / 4096 - 0xe0) * 4096 + (0x80 + c / 64 % 64 - 0x80) * 64 +
            (0x80 + c % 64 - 0x80) = c := by omega
        rw [this]
      · simp only [if_neg h1, if_neg h2, if_neg h3, List.cons_append, List.nil_append,
          utf8DecodeAux]
        have e1 : ¬ (0xf0 + c / 262144 < 0x80) := by omega
        have e2 : ¬ (0xf0 + c / 262144 < 0xc0) := by omega
        have e3 : ¬ (0xf0 + c / 262144 < 0xe0) := by omega
        have e4 : ¬ (0xf0 + c / 262144 < 0xf0) := by omega
        have e5 : 0xf0 + c / 262144 < 0xf8 := by omega
        have e6 : (0x80 ≤ 0x80 + c / 4096 % 64 ∧ 0x80 + c / 4096 % 64 < 0xc0) ∧
            (0x80 ≤ 0x80 + c / 64 % 64 ∧ 0x80 + c / 64 % 64 < 0xc0) ∧
            (0x80 ≤ 0x80 + c % 64 ∧ 0x80 + c % 64 < 0xc0) := by omega
        simp only [if_neg e1, if_neg e2, if_neg e3, if_neg e4, if_pos e5, if_pos e6]
        have : (0xf0 + c / 262144 - 0xf0) * 262144 + (0x80 + c / 4096 % 64 - 0x80) * 4096 +
            (0x80 + c / 64 % 64 - 0x80) * 64 + (0x80 + c % 64 - 0x80) = c := by omega
        rw [this]

theorem utf8DecodeAux_encode_list (cs : List Nat) (hc : ∀ c ∈ cs, c < 0x110000) :
    ∀ fuel, cs.length ≤ fuel →
      utf8DecodeAux fuel (utf8EncodeCps cs) = some cs := by
  induction cs with
  | nil => intro fuel _; cases fuel <;> rfl
  | cons c cs ih =>
    intro fuel hfuel
    match fuel, hfuel with
    | fuel + 1, hfuel =>
      have hlen : cs.length ≤ fuel := by
        simp only [List.length_cons] at hfuel
        omega
      have hcs : utf8EncodeCps (c :: cs) = utf8EncodeCp c ++ utf8EncodeCps cs := by
        simp [utf8EncodeCps]
      rw [hcs, utf8DecodeAux_encode_cons c (hc c (by simp)) _ fuel,
        ih (fun x hx => hc x (by simp [hx])) fuel hlen]
      rfl

theorem utf8EncodeCp_length_pos (c : Nat) : 1 ≤ (utf8EncodeCp c).length := by
  unfold utf8EncodeCp
  split
  · simp
  split
  · simp
  split
  · simp
  · simp

theorem utf8EncodeCps_length_ge (cs : List Nat) : cs.length ≤ (utf8EncodeCps cs).length := by
  induction cs with
  | nil => simp [utf8EncodeCps]
  | cons c cs ih =>
    simp only [utf8EncodeCps, List.flatMap_cons, List.length_append, List.length_cons] at ih ⊢
    have := utf8EncodeCp_length_pos c
    omega

theorem utf8DecodeBytes_encode (cs : List Nat) (hc : ∀ c ∈ cs, c < 0x110000) :
    utf8DecodeBytes (utf8EncodeCps cs) = some cs :=
  utf8DecodeAux_encode_list cs hc _ (utf8EncodeCps_length_ge cs)

theorem cpChar_toNat (c : Char) : cpChar c.toNat = some c := by
  unfold cpChar
  have hv : Nat.isValidChar c.toNat := c.valid
  rw [if_pos hv, Char.ofNat_toNat]

theorem mapM_cpChar_toNat (l : List Char) : (l.map Char.toNat).mapM cpChar = some l := by
  induction l with
  | nil => rfl
  | cons c l ih =>
    simp only [List.map_cons, List.mapM_cons, cpChar_toNat, ih]
    rfl

theorem char_toNat_lt (ch : Char) : ch.toNat < 0x110000 := by
  have hv := ch.valid
  have he : ch.toNat = ch.val.toNat := rfl
  rcases hv with h | h
  · omega
  · omega

theorem utf8DecodeStr_utf8Str (s : String) : utf8DecodeStr (utf8Str s) = some s := by
  unfold utf8DecodeStr utf8Str
  rw [utf8DecodeBytes_encode]
  · simp only [Option.bind_eq_bind, Option.some_bind, mapM_cpChar_toNat]
    rfl
  · intro c hc
    simp only [List.mem_map] at hc
    obtain ⟨ch, _, rfl⟩ := hc
    exact char_toNat_lt ch

theorem asciiU256_asciiS256 (s : String) (hascii : s.data.all (fun c => c.toNat < 128))
    (hlen : s.data.length ≤ 256) (bs : List Nat) (henc : asciiS256 s = some bs) :
    asciiU256 bs = some s := by
  unfold asciiS256 at henc
  rw [if_pos hascii, List.take_of_length_le (by simpa using hlen)] at henc
  have hbs : bs = s.data.map Char.toNat := (Option.some_injective _ henc).symm
  subst hbs
  have hall : (s.data.map Char.toNat).all (fun b => b < 128) = true := by
    simp only [List.all_eq_true] at hascii ⊢
    intro b hb
    simp only [List.mem_map] at hb
    obtain ⟨c, hc, rfl⟩ := hb
    simpa using hascii c hc
  unfold asciiU256
  rw [if_pos hall, List.take_of_length_le (by simpa using hlen), List.map_map]
  have hcomp : (Char.ofNat ∘ Char.toNat) = id := by
    funext c
    exact Char.ofNat_toNat c
  rw [hcomp, List.map_id]

/-- FIPS 180-1 test vector, checking the SHA-1 model. -/
theorem sha1Hex_abc : sha1Hex "abc" = "a9993e364706816aba3e25717850c26c9cd0d89d" := by
  decide

/-- Success is preserved by `Except.map`. -/
theorem isOkE_map {E A B : Type} (r : Except E A) (g : A → B) :
    isOkE (r.map g) = isOkE r := by
  cases r <;> rfl

/-- In a list with distinct keys, two rows with the same key are equal. -/
theorem assoc_value_unique {β : Type} (l : List (String × β))
    (hnd : (l.map Prod.fst).Nodup) (k : String) (a b : β)
    (ha : (k, a) ∈ l) (hb : (k, b) ∈ l) : a = b := by
  have h1 := lookupAssoc_of_mem l hnd k a ha
  have h2 := lookupAssoc_of_mem l hnd k b hb
  rw [h1] at h2
  exact Option.some_injective _ h2

/-- C5: for every path whose extension is not one of `.npz`, `.h5`,
`.json`, both `save` and `load` fail with the unsupported-format error
naming the offending extension (the `KeyError(ext)` of the dispatch
table), before any file is created or read. -/
theorem C5_unsupported_extension (inst : Inst) (cls : SchemaClass)
    (filename : String) (content : FileContent)
    (h : splitextExt filename ∉ [".npz", ".h5", ".json"]) :
    save inst filename = ([], .error (.unsupportedFormat (splitextExt filename))) ∧
    load cls filename content = ([], .error (.unsupportedFormat (splitextExt filename))) := by
  simp only [List.mem_cons, List.mem_singleton, not_or] at h
  obtain ⟨h1, h2, h3, -⟩ := h
  constructor
  · simp only [save, if_neg h1, if_neg h2, if_neg h3]
  · simp only [load, if_neg h1, if_neg h2, if_neg h3]

theorem C5_unsupported_extension_witness :
    splitextExt "out.txt" ∉ [".npz", ".h5", ".json"] ∧
    save ⟨⟨"SomeSchema", "test", []⟩, []⟩ "out.txt" =
      ([], .error (.unsupportedFormat (splitextExt "out.txt"))) ∧
    load ⟨"SomeSchema", "test", []⟩ "out.txt" (FileContent.text "") =
      ([], .error (.unsupportedFormat (splitextExt "out.txt"))) :=
  ⟨by decide, C5_unsupported_extension ⟨⟨"SomeSchema", "test", []⟩, []⟩
    ⟨"SomeSchema", "test", []⟩ "out.txt" (FileContent.text "") (by decide)⟩

/-- C6: evaluating `bundle_schema` at a failing input — a bundle whose
per-entry format `"txt"` makes the inner `Schema.save` raise — shows the
scratch directory is allocated but not removed: `tempdir()` has no
`try/finally`, so `shutil.rmtree` is skipped when the body raises. -/
theorem C6_tempdir_not_removed_on_failure :
    bundleSchema "out.zip"
      [("a", ⟨⟨"SomeSchema", "test", [("x", ⟨Kind.anum, Option.none⟩)]⟩,
        [("x", ⟨Kind.anum, Option.none⟩, Value.arr [1])]⟩)] "txt" =
      (.error (.saveFailed (.unsupportedFormat ".txt")), true, false) := by
  decide

/-- C9 counterexample: `from_json` given the string `"d.json"` parses the
string itself as JSON (and fails), instead of reading the file of that
name as the spec's path reading would. -/
theorem C9_counterexample :
    fromJson ⟨"SomeSchema", "test", [("x", ⟨Kind.cnum, Option.none⟩)]⟩
        (JsonInput.text "d.json") ≠
      fromJsonSpec
        (fun p => if p = "d.json" then some "\x7b\"x\":1\x7d" else Option.none)
        ⟨"SomeSchema", "test", [("x", ⟨Kind.cnum, Option.none⟩)]⟩
        (JsonInput.text "d.json") := by
  decide

/-- C9 amended: `from_json` accepts a JSON text string or an already-open
readable stream; both are parsed as JSON content into a flat mapping from
which the instance is constructed — a string is never treated as a path. -/
theorem C9_text_decode (cls : SchemaClass) (s : String)
    (kvs : List (String × Json)) (h : jsonLoads s = some kvs) :
    fromJson cls (JsonInput.text s) =
      (construct cls (kvs.map (fun kv => (kv.1, jsonToValue kv.2)))).mapError
        JErr.constructErr ∧
    fromJson cls (JsonInput.stream s) = fromJson cls (JsonInput.text s) := by
  constructor
  · simp [fromJson, fromJsonData, h]
  · rfl

theorem C9_text_decode_witness :
    jsonLoads "\x7b\"x\":1\x7d" = some [("x", Json.jnum 1)] ∧
    (fromJson ⟨"SomeSchema", "test", [("x", ⟨Kind.cnum, Option.none⟩)]⟩
        (JsonInput.text "\x7b\"x\":1\x7d") =
      (construct ⟨"SomeSchema", "test", [("x", ⟨Kind.cnum, Option.none⟩)]⟩
        ([("x", Json.jnum 1)].map (fun kv => (kv.1, jsonToValue kv.2)))).mapError
          JErr.constructErr ∧
    fromJson ⟨"SomeSchema", "test", [("x", ⟨Kind.cnum, Option.none⟩)]⟩
        (JsonInput.stream "\x7b\"x\":1\x7d") =
      fromJson ⟨"SomeSchema", "test", [("x", ⟨Kind.cnum, Option.none⟩)]⟩
        (JsonInput.text "\x7b\"x\":1\x7d")) :=
  ⟨by rfl, C9_text_decode ⟨"SomeSchema", "test", [("x", ⟨Kind.cnum, Option.none⟩)]⟩
    "\x7b\"x\":1\x7d" [("x", Json.jnum 1)] (by rfl)⟩

/-- C2 counterexample: on an instance with one populated array field,
`to_hdf` with `compression="lzf"` and `compression_opts=6` does fail, but
only after `h5py.File` has created the target file — the claim's
"before the target file is created" is false. -/
theorem C2_counterexample :
    ¬ (isOkE (toHdf ⟨⟨"MySchema", "test", [("x", ⟨Kind.anum, Option.none⟩)]⟩,
          [("x", ⟨Kind.anum, Option.none⟩, Value.arr [1])]⟩
          "w" (some "lzf") (some 6) true).2 = false ∧
        HEvent.openFile ∉ (toHdf ⟨⟨"MySchema", "test", [("x", ⟨Kind.anum, Option.none⟩)]⟩,
          [("x", ⟨Kind.anum, Option.none⟩, Value.arr [1])]⟩
          "w" (some "lzf") (some 6) true).1) := by
  decide

/-- C3 counterexample: `to_npz` does not omit a never-assigned (`None`)
field — `np.savez(filename, **self.to_dict())` writes every visible
trait, so the field name is in the archive key set. -/
theorem C3_counterexample :
    "z" ∈ (toNpz ⟨⟨"SomeSchema", "test", [("z", ⟨Kind.aon, Option.none⟩)]⟩,
      [("z", ⟨Kind.aon, Option.none⟩, Value.none)]⟩).map Prod.fst := by
  decide

/-- C7: a keyword argument whose name is not a declared trait makes
construction fail on every path.  When the declared keyword values
themselves coerce (type validation is the trait facility's job and runs
first), the failure is precisely the unknown-field `RuntimeError`; the npz
decoder (`cls(**attrs)`) and the text decoder (`cls(**loaded)`) both
funnel through the same constructor. -/
theorem C7_unknown_field (cls : SchemaClass) (kwargs : List (String × Value))
    (key : String) (hmem : key ∈ kwargs.map Prod.fst)
    (hunk : lookupAssoc cls.decl key = Option.none)
    (hco : ∀ kv ∈ kwargs, ∀ d, lookupAssoc cls.decl kv.1 = some d →
      (d.kind.coerce kv.2).isSome = true) :
    (∃ k, lookupAssoc cls.decl k = Option.none ∧
        construct cls kwargs = .error (.unknownField k) ∧
        fromNpz cls kwargs = .error (.unknownField k)) ∧
    (∀ content kvs, jsonLoads content = some kvs →
        kvs.map (fun kv => (kv.1, jsonToValue kv.2)) = kwargs →
        ∃ k, fromJsonData cls content = .error (.constructErr (.unknownField k))) := by
  have hfind1 : kwargs.find? (fun kv =>
      match lookupAssoc cls.decl kv.1 with
      | some d => (d.kind.coerce kv.2).isNone
      | Option.none => false) = Option.none := by
    rw [List.find?_eq_none]
    intro kv hkv
    cases hld : lookupAssoc cls.decl kv.1 with
    | none => simp
    | some d =>
      have hs := hco kv hkv d hld
      cases hcc : d.kind.coerce kv.2 with
      | none => rw [hcc] at hs; cases hs
      | some w => simp [hcc]
  have hex : ∃ kv ∈ kwargs, (lookupAssoc cls.decl kv.1).isNone = true := by
    obtain ⟨kv, hkv, hkey⟩ := List.mem_map.mp hmem
    refine ⟨kv, hkv, ?_⟩
    rw [hkey, hunk]
    rfl
  obtain ⟨kv0, hfind2⟩ := Option.isSome_iff_exists.mp (List.find?_isSome.mpr hex)
  have hp0 := List.find?_some hfind2
  have hcons : construct cls kwargs = .error (.unknownField kv0.1) := by
    unfold construct
    rw [hfind1, hfind2]
  refine ⟨⟨kv0.1, Option.isNone_iff_eq_none.mp hp0, hcons, hcons⟩, ?_⟩
  intro content kvs hload hmap
  refine ⟨kv0.1, ?_⟩
  unfold fromJsonData
  rw [hload]
  show (construct cls (kvs.map (fun kv => (kv.1, jsonToValue kv.2)))).mapError
    JErr.constructErr = _
  rw [hmap, hcons]
  rfl

theorem C7_unknown_field_witness :
    ("bogus" ∈ ([("bogus", Value.num 1)] : List (String × Value)).map Prod.fst) ∧
    ((∃ k, lookupAssoc (⟨"SomeSchema", "test",
          [("x", ⟨Kind.anum, Option.none⟩)]⟩ : SchemaClass).decl k = Option.none ∧
        construct ⟨"SomeSchema", "test", [("x", ⟨Kind.anum, Option.none⟩)]⟩
          [("bogus", Value.num 1)] = .error (.unknownField k) ∧
        fromNpz ⟨"SomeSchema", "test", [("x", ⟨Kind.anum, Option.none⟩)]⟩
          [("bogus", Value.num 1)] = .error (.unknownField k)) ∧
    (∀ content kvs, jsonLoads content = some kvs →
        kvs.map (fun kv => (kv.1, jsonToValue kv.2)) = [("bogus", Value.num 1)] →
        ∃ k, fromJsonData ⟨"SomeSchema", "test", [("x", ⟨Kind.anum, Option.none⟩)]⟩
          content = .error (.constructErr (.unknownField k)))) :=
  ⟨by decide,
    C7_unknown_field ⟨"SomeSchema", "test", [("x", ⟨Kind.anum, Option.none⟩)]⟩
      [("bogus", Value.num 1)] "bogus" (by decide) (by decide)
      (by
        intro kv hkv d hld
        obtain rfl := List.mem_singleton.mp hkv
        have h0 : lookupAssoc [("x", (⟨Kind.anum, Option.none⟩ : FieldDecl))]
            "bogus" = Option.none := by decide
        rw [h0] at hld
        cases hld)⟩

/-- With `lzf` compression and a non-null level, the per-field loop fails
as soon as it reaches a populated array-valued field. -/
theorem toHdfFields_lzf_error (opts : Int) :
    ∀ fields : List (String × FieldDecl × Value),
      (∃ f ∈ fields, f.2.1.kind.isArray = true ∧ f.2.2 ≠ Value.none) →
      isOkE (toHdfFields (some "lzf") (some opts) true fields).2 = false := by
  intro fields
  induction fields with
  | nil =>
    intro h
    obtain ⟨f, hf, _⟩ := h
    cases hf
  | cons fld rest ih =>
    intro h
    obtain ⟨n, d, v⟩ := fld
    by_cases hv : v = Value.none
    · subst hv
      obtain ⟨f, hf, hfa, hfv⟩ := h
      have hf2 : f ∈ rest := by
        rcases List.mem_cons.mp hf with heq | hm
        · subst heq
          exact absurd rfl hfv
        · exact hm
      simp only [toHdfFields, if_pos rfl]
      exact ih ⟨f, hf2, hfa, hfv⟩
    · simp only [toHdfFields, if_neg hv]
      cases henc : hdfEncodeField d.kind.isArray true v with
      | error e => rfl
      | ok data =>
        by_cases hda : d.kind.isArray = true
        · have hcond : (d.kind.isArray && (some "lzf" == some "lzf")
              && (some opts).isSome) = true := by
            rw [hda]
            rfl
          rw [hcond]
          rfl
        · obtain ⟨f, hf, hfa, hfv⟩ := h
          have hf2 : f ∈ rest := by
            rcases List.mem_cons.mp hf with heq | hm
            · subst heq
              exact absurd hfa hda
            · exact hm
          have hda2 : d.kind.isArray = false := Bool.eq_false_iff.mpr hda
          have hcond : (d.kind.isArray && (some "lzf" == some "lzf")
              && (some opts).isSome) = false := by
            rw [hda2]
            rfl
          rw [hcond]
          simp only [Bool.false_eq_true, if_false]
          have htl := ih ⟨f, hf2, hfa, hfv⟩
          cases hrest : toHdfFields (some "lzf") (some opts) true rest with
          | mk evs res =>
            rw [hrest] at htl
            simpa [isOkE_map] using htl

/-- C2 amended: requesting `lzf` together with a non-null
`compression_opts` on an instance with at least one populated
array-valued field makes `to_hdf` fail — `h5py` raises `ValueError` when
the first chunked dataset is created — but only after `h5py.File` has
already created/opened the target file; `to_hdf` itself performs no prior
validation. -/
theorem C2_lzf_error_after_file_open (inst : Inst) (opts : Int)
    (h : ∃ f ∈ inst.fields, f.2.1.kind.isArray = true ∧ f.2.2 ≠ Value.none) :
    isOkE (toHdf inst "w" (some "lzf") (some opts) true).2 = false ∧
    HEvent.openFile ∈ (toHdf inst "w" (some "lzf") (some opts) true).1 := by
  constructor
  · have := toHdfFields_lzf_error opts inst.fields h
    cases hrest : toHdfFields (some "lzf") (some opts) true inst.fields with
    | mk evs res =>
      rw [hrest] at this
      unfold toHdf
      rw [hrest]
      simpa [isOkE_map] using this
  · unfold toHdf
    cases toHdfFields (some "lzf") (some opts) true inst.fields with
    | mk evs res => exact List.mem_cons_self _ _

theorem C2_lzf_error_after_file_open_witness :
    (∃ f ∈ ([("x", (⟨Kind.anum, Option.none⟩ : FieldDecl), Value.arr [1])] :
        List (String × FieldDecl × Value)),
      f.2.1.kind.isArray = true ∧ f.2.2 ≠ Value.none) ∧
    (isOkE (toHdf ⟨⟨"MySchema", "test", [("x", ⟨Kind.anum, Option.none⟩)]⟩,
        [("x", ⟨Kind.anum, Option.none⟩, Value.arr [1])]⟩
        "w" (some "lzf") (some 6) true).2 = false ∧
      HEvent.openFile ∈ (toHdf ⟨⟨"MySchema", "test", [("x", ⟨Kind.anum, Option.none⟩)]⟩,
        [("x", ⟨Kind.anum, Option.none⟩, Value.arr [1])]⟩
        "w" (some "lzf") (some 6) true).1) :=
  ⟨⟨("x", ⟨Kind.anum, Option.none⟩, Value.arr [1]), by decide, by decide, by decide⟩,
    C2_lzf_error_after_file_open
      ⟨⟨"MySchema", "test", [("x", ⟨Kind.anum, Option.none⟩)]⟩,
        [("x", ⟨Kind.anum, Option.none⟩, Value.arr [1])]⟩ 6
      ⟨("x", ⟨Kind.anum, Option.none⟩, Value.arr [1]), by decide, by decide, by decide⟩⟩

/-- C4 counterexample: on an instance holding a record array, `save` to a
`.json` path does fail, but the output file has already been created:
`with open(filename, "w")` runs before `to_json()` raises, so the claim's
"produces no output file" is false (an empty/truncated file remains). -/
theorem C4_counterexample :
    ¬ (isOkE (save ⟨⟨"R", "test", [("v", ⟨Kind.arec, Option.none⟩)]⟩,
          [("v", ⟨Kind.arec, Option.none⟩,
            Value.recarr [("a", Col.ints [1])])]⟩ "r.json").2 = false ∧
        (save ⟨⟨"R", "test", [("v", ⟨Kind.arec, Option.none⟩)]⟩,
          [("v", ⟨Kind.arec, Option.none⟩,
            Value.recarr [("a", Col.ints [1])])]⟩ "r.json").1 = []) := by
  decide

/-- The field serialization loop of `to_json` raises the record-array
`RuntimeError` whenever a record-array field is present (all other
user-assignable values serialize). -/
theorem toJsonFields_recarr_error :
    ∀ fields : List (String × FieldDecl × Value),
      (∀ f ∈ fields, userValue f.2.2 = true) →
      (∃ f ∈ fields, ∃ cols, f.2.2 = Value.recarr cols) →
      fields.mapM toJsonField = .error JsonErr.recarrayUnsupported := by
  intro fields
  induction fields with
  | nil =>
    intro _ h
    obtain ⟨f, hf, _⟩ := h
    cases hf
  | cons fld rest ih =>
    intro huser hrec
    rw [List.mapM_cons]
    by_cases hisrec : ∃ cols, fld.2.2 = Value.recarr cols
    · obtain ⟨cols, hcols⟩ := hisrec
      have hjf : toJsonField fld = .error JsonErr.recarrayUnsupported := by
        unfold toJsonField
        rw [hcols]
        rfl
      rw [hjf]
      rfl
    · have hok : ∃ j, valueToJson fld.2.2 = .ok j := by
        have hu := huser fld (List.mem_cons_self fld rest)
        cases hval : fld.2.2 with
        | none => exact ⟨.jnull, rfl⟩
        | num n => exact ⟨.jnum n, rfl⟩
        | str s => exact ⟨.jstr s, rfl⟩
        | arr xs => exact ⟨.jarr (xs.map .jnum), rfl⟩
        | sarr ss => exact ⟨.jarr (ss.map .jstr), rfl⟩
        | recarr cols => exact absurd ⟨cols, hval⟩ hisrec
        | num0d n => rw [hval] at hu; cases hu
        | str0d s => rw [hval] at hu; cases hu
        | none0d => rw [hval] at hu; cases hu
        | barr bs => rw [hval] at hu; cases hu
        | pyobj => rw [hval] at hu; cases hu
      obtain ⟨j, hj⟩ := hok
      have hjf : toJsonField fld = .ok (fld.1, j) := by
        unfold toJsonField
        rw [hj]
        rfl
      rw [hjf]
      have hrest : ∃ f ∈ rest, ∃ cols, f.2.2 = Value.recarr cols := by
        obtain ⟨f, hf, cols, hcols⟩ := hrec
        rcases List.mem_cons.mp hf with heq | hm
        · subst heq
          exact absurd ⟨cols, hcols⟩ hisrec
        · exact ⟨f, hm, cols, hcols⟩
      rw [ih (fun f hf => huser f (List.mem_cons_of_mem fld hf)) hrest]
      rfl

/-- C4 amended: a record-array field makes text serialization fail fatally
with the record-array `RuntimeError` when that field is reached;
`to_json` itself writes no file, but `Schema.save` to a `.json` path opens
(creates) the output file before encoding, so the failed save leaves an
empty file behind rather than no file. -/
theorem C4_recarray_json (inst : Inst) (filename : String)
    (hext : splitextExt filename = ".json")
    (huser : ∀ f ∈ inst.fields, userValue f.2.2 = true)
    (hrec : ∃ f ∈ inst.fields, ∃ cols, f.2.2 = Value.recarr cols) :
    toJson inst = .error .recarrayUnsupported ∧
    save inst filename =
      ([FEvent.fileCreated filename], .error (.json .recarrayUnsupported)) := by
  have hj : toJson inst = .error .recarrayUnsupported := by
    unfold toJson
    rw [toJsonFields_recarr_error inst.fields huser hrec]
    rfl
  refine ⟨hj, ?_⟩
  simp only [save, hext]
  rw [if_pos trivial, hj]
  rfl

theorem C4_recarray_json_witness :
    splitextExt "r.json" = ".json" ∧
    (toJson ⟨⟨"R", "test", [("v", ⟨Kind.arec, Option.none⟩)]⟩,
        [("v", ⟨Kind.arec, Option.none⟩, Value.recarr [("a", Col.ints [1])])]⟩ =
      .error .recarrayUnsupported ∧
    save ⟨⟨"R", "test", [("v", ⟨Kind.arec, Option.none⟩)]⟩,
        [("v", ⟨Kind.arec, Option.none⟩, Value.recarr [("a", Col.ints [1])])]⟩
        "r.json" =
      ([FEvent.fileCreated "r.json"], .error (.json .recarrayUnsupported))) :=
  ⟨by decide,
    C4_recarray_json
      ⟨⟨"R", "test", [("v", ⟨Kind.arec, Option.none⟩)]⟩,
        [("v", ⟨Kind.arec, Option.none⟩, Value.recarr [("a", Col.ints [1])])]⟩
      "r.json" (by decide) (by decide)
      ⟨("v", ⟨Kind.arec, Option.none⟩, Value.recarr [("a", Col.ints [1])]),
        by decide, [("a", Col.ints [1])], rfl⟩⟩

/-- A `mapM` whose step preserves a key sends the key list to itself. -/
theorem exceptMapM_fst {α β ε : Type} (kα : α → String) (kβ : β → String)
    (f : α → Except ε β) (hf : ∀ a r, f a = .ok r → kβ r = kα a) :
    ∀ (l : List α) (rows : List β), l.mapM f = .ok rows →
      rows.map kβ = l.map kα := by
  intro l
  induction l with
  | nil =>
    intro rows h
    cases h
    rfl
  | cons a l ih =>
    intro rows h
    rw [List.mapM_cons] at h
    cases hfa : f a with
    | error e => rw [hfa] at h; cases h
    | ok r =>
      rw [hfa] at h
      cases hrest : l.mapM f with
      | error e => rw [hrest] at h; cases h
      | ok rs =>
        rw [hrest] at h
        have hrows : rows = r :: rs := by
          cases h
          rfl
        subst hrows
        simp only [List.map_cons, hf a r hfa, ih rs hrest]

/-- Every dataset name written by the `to_hdf` loop comes from a field
whose value was populated (not `None`). -/
theorem toHdfFields_names (c : Option String) (o : Option Int) (e : Bool) :
    ∀ (fields : List (String × FieldDecl × Value)) (ds : List (String × Dset)),
      (toHdfFields c o e fields).2 = .ok ds →
      ∀ m ∈ ds.map Prod.fst, ∃ d v, (m, d, v) ∈ fields ∧ v ≠ Value.none := by
  intro fields
  induction fields with
  | nil =>
    intro ds h m hm
    cases h
    cases hm
  | cons fld rest ih =>
    intro ds h m hm
    obtain ⟨n, d, v⟩ := fld
    by_cases hv : v = Value.none
    · subst hv
      simp only [toHdfFields, if_pos rfl] at h
      obtain ⟨d2, v2, hmem, hne⟩ := ih ds h m hm
      exact ⟨d2, v2, List.mem_cons_of_mem _ hmem, hne⟩
    · cases henc : hdfEncodeField d.kind.isArray e v with
      | error er =>
        simp only [toHdfFields, if_neg hv, henc] at h
        exact Except.noConfusion h
      | ok data =>
        simp only [toHdfFields, if_neg hv, henc] at h
        by_cases hcomp : (d.kind.isArray && c == some "lzf" && o.isSome) = true
        · rw [if_pos hcomp] at h
          exact Except.noConfusion h
        · rw [if_neg hcomp] at h
          cases hres : (toHdfFields c o e rest).2 with
          | error er =>
            rw [hres] at h
            exact Except.noConfusion h
          | ok ds2 =>
            rw [hres] at h
            have hds : ds = (n, (⟨data, typeStr data, d.desc⟩ : Dset)) :: ds2 := by
              cases h
              rfl
            subst hds
            rcases List.mem_map.mp hm with ⟨row, hrow, hrowm⟩
            rcases List.mem_cons.mp hrow with heq | hm2
            · subst heq
              have hmn : m = n := hrowm.symm
              subst hmn
              exact ⟨d, v, List.mem_cons_self _ _, hv⟩
            · obtain ⟨d2, v2, hmem2, hne2⟩ :=
                ih ds2 hres m (List.mem_map.mpr ⟨row, hm2, hrowm⟩)
              exact ⟨d2, v2, List.mem_cons_of_mem _ hmem2, hne2⟩

/-- C3 amended: a never-assigned (`None`) field is omitted from the HDF5
dataset list, and a field absent from an HDF5 file reloads at its declared
default; the npz encoder, however, writes every visible trait — including
`None`-valued ones (as pickled 0-d object entries) — so the field name is
in the archive key set. -/
theorem C3_absent_field (inst : Inst) (hwf : inst.wf) (n : String) (d : FieldDecl)
    (hmem : (n, d, Value.none) ∈ inst.fields) :
    (∀ hfile, (toHdf inst "w" Option.none Option.none true).2 = .ok hfile →
        n ∉ hfile.dsets.map Prod.fst) ∧
    (∀ hfile inst2, lookupAssoc hfile.dsets n = Option.none →
        fromHdf inst.cls hfile true = .ok inst2 →
        getField inst2 n = some d.kind.dflt) ∧
    n ∈ (toNpz inst).map Prod.fst := by
  have hnames : inst.cls.decl.map Prod.fst = inst.fields.map Prod.fst := by
    rw [← hwf.1, List.map_map]
    rfl
  have hndfields : (inst.fields.map Prod.fst).Nodup := hnames ▸ hwf.2
  refine ⟨?_, ?_, ?_⟩
  · intro hfile hok hm
    unfold toHdf at hok
    cases hrest : toHdfFields Option.none Option.none true inst.fields with
    | mk evs res =>
      rw [hrest] at hok
      cases res with
      | error e => cases hok
      | ok ds =>
        have hds : (toHdfFields Option.none Option.none true inst.fields).2 = .ok ds := by
          rw [hrest]
        have hfds : hfile.dsets = ds := by
          cases hok
          rfl
        rw [hfds] at hm
        obtain ⟨d2, v2, hmem2, hne2⟩ :=
          toHdfFields_names Option.none Option.none true inst.fields ds hds n hm
        have huniq : ((d, Value.none) : FieldDecl × Value) = (d2, v2) :=
          assoc_value_unique inst.fields hndfields n _ _ hmem hmem2
        exact hne2 ((congrArg Prod.snd huniq).symm)
  · intro hfile inst2 hlk hok
    unfold fromHdf at hok
    cases hmap : inst.cls.decl.mapM (fromHdfField hfile true) with
    | error e => rw [hmap] at hok; cases hok
    | ok rows =>
      rw [hmap] at hok
      have hinst2 : inst2 = ⟨inst.cls, rows⟩ := by
        cases hok
        rfl
      subst hinst2
      have hndmem : (n, d) ∈ inst.cls.decl := by
        rw [← hwf.1]
        exact List.mem_map.mpr ⟨(n, d, Value.none), hmem, rfl⟩
      obtain ⟨r, hr, hgr⟩ :=
        exceptMapM_mem_ok (fromHdfField hfile true) inst.cls.decl rows hmap (n, d) hndmem
      have hrval : r = (n, d, d.kind.dflt) := by
        unfold fromHdfField at hgr
        rw [hlk] at hgr
        cases hgr
        rfl
      subst hrval
      have hrowsnames : rows.map Prod.fst = inst.cls.decl.map Prod.fst := by
        refine exceptMapM_fst Prod.fst Prod.fst (fromHdfField hfile true) ?_
          inst.cls.decl rows hmap
        intro a r hfa
        unfold fromHdfField at hfa
        split at hfa
        · cases hfa
          rfl
        · split at hfa
          · cases hfa
          · split at hfa
            · cases hfa
              rfl
            · cases hfa
      have hndrows : (rows.map Prod.fst).Nodup := by
        rw [hrowsnames]
        exact hwf.2
      exact getField_of_mem ⟨inst.cls, rows⟩ hndrows n d d.kind.dflt hr
  · have hkeys : (toNpz inst).map Prod.fst = inst.fields.map Prod.fst := by
      unfold toNpz toDict
      rw [List.map_map, List.map_map]
      rfl
    rw [hkeys]
    exact List.mem_map.mpr ⟨(n, d, Value.none), hmem, rfl⟩

theorem C3_absent_field_witness :
    (⟨⟨"SomeSchema", "test", [("z", ⟨Kind.aon, Option.none⟩),
        ("x", ⟨Kind.anum, Option.none⟩)]⟩,
      [("z", ⟨Kind.aon, Option.none⟩, Value.none),
        ("x", ⟨Kind.anum, Option.none⟩, Value.arr [1])]⟩ : Inst).wf ∧
    ((∀ hfile, (toHdf ⟨⟨"SomeSchema", "test", [("z", ⟨Kind.aon, Option.none⟩),
          ("x", ⟨Kind.anum, Option.none⟩)]⟩,
        [("z", ⟨Kind.aon, Option.none⟩, Value.none),
          ("x", ⟨Kind.anum, Option.none⟩, Value.arr [1])]⟩
          "w" Option.none Option.none true).2 = .ok hfile →
        "z" ∉ hfile.dsets.map Prod.fst) ∧
    (∀ hfile inst2, lookupAssoc hfile.dsets "z" = Option.none →
        fromHdf (⟨"SomeSchema", "test", [("z", ⟨Kind.aon, Option.none⟩),
          ("x", ⟨Kind.anum, Option.none⟩)]⟩ : SchemaClass) hfile true = .ok inst2 →
        getField inst2 "z" = some (⟨Kind.aon, Option.none⟩ : FieldDecl).kind.dflt) ∧
    "z" ∈ (toNpz ⟨⟨"SomeSchema", "test", [("z", ⟨Kind.aon, Option.none⟩),
        ("x", ⟨Kind.anum, Option.none⟩)]⟩,
      [("z", ⟨Kind.aon, Option.none⟩, Value.none),
        ("x", ⟨Kind.anum, Option.none⟩, Value.arr [1])]⟩).map Prod.fst) :=
  ⟨by decide,
    C3_absent_field
      ⟨⟨"SomeSchema", "test", [("z", ⟨Kind.aon, Option.none⟩),
          ("x", ⟨Kind.anum, Option.none⟩)]⟩,
        [("z", ⟨Kind.aon, Option.none⟩, Value.none),
          ("x", ⟨Kind.anum, Option.none⟩, Value.arr [1])]⟩
      (by decide) "z" ⟨Kind.aon, Option.none⟩ (by decide)⟩

/-- `String` append is right-cancellative. -/
theorem string_append_right_cancel (s1 s2 t : String) (h : s1 ++ t = s2 ++ t) :
    s1 = s2 := by
  have hd : (s1 ++ t).data = (s2 ++ t).data := congrArg String.data h
  rw [String.data_append, String.data_append] at hd
  have hc := List.append_cancel_right hd
  cases s1
  cases s2
  exact congrArg String.mk hc

/-- A successful staging step records the key and the hashed filename. -/
theorem bundleEntry_ok (format : String) (kv : String × Inst)
    (ent : (String × FileContent) × (String × IndexEntry))
    (h : bundleEntry format kv = .ok ent) :
    ent.2 = (kv.1, (⟨sha1Hex kv.1 ++ "." ++ format, kv.2.cls.name,
      kv.2.cls.modName⟩ : IndexEntry)) := by
  simp only [bundleEntry] at h
  cases hs : (save kv.2 (sha1Hex kv.1 ++ "." ++ format)).2 with
  | error e =>
    rw [hs] at h
    cases h
  | ok content =>
    rw [hs] at h
    cases h
    rfl

/-- C10: in every successful `bundle_schema`, the relative filename
recorded in the bundle index for a key is the SHA-1 hex digest of the key
followed by a dot and the format tag; consequently entries whose keys
hash differently get distinct filenames. -/
theorem C10_bundle_filenames (outfile : String) (schema : List (String × Inst))
    (format : String) (b : Bundle)
    (hok : (bundleSchema outfile schema format).1 = .ok b) :
    (∀ key inst1, (key, inst1) ∈ schema →
        (key, (⟨sha1Hex key ++ "." ++ format, inst1.cls.name,
          inst1.cls.modName⟩ : IndexEntry)) ∈ b.index) ∧
    (∀ k1 k2 e1 e2, (k1, e1) ∈ b.index → (k2, e2) ∈ b.index →
        sha1Hex k1 ≠ sha1Hex k2 → e1.filename ≠ e2.filename) := by
  unfold bundleSchema at hok
  split at hok
  · cases hok
  · have hb : bundleBody schema format = .ok b := by
      cases hbb : bundleBody schema format with
      | error e =>
        rw [hbb] at hok
        cases hok
      | ok bb =>
        rw [hbb] at hok
        cases hok
        rfl
    unfold bundleBody at hb
    cases hmapm : schema.mapM (bundleEntry format) with
    | error e =>
      rw [hmapm] at hb
      cases hb
    | ok entries =>
      rw [hmapm] at hb
      have hbv : b = ⟨entries.map Prod.fst, entries.map Prod.snd, BUNDLE_VERSION⟩ := by
        cases hb
        rfl
      subst hbv
      constructor
      · intro key inst1 hmem
        obtain ⟨ent, hent, hok2⟩ :=
          exceptMapM_mem_ok (bundleEntry format) schema entries hmapm (key, inst1) hmem
        have := bundleEntry_ok format (key, inst1) ent hok2
        rw [← this]
        exact List.mem_map.mpr ⟨ent, hent, rfl⟩
      · intro k1 k2 e1 e2 h1 h2 hne heq
        obtain ⟨ent1, hent1, hsnd1⟩ := List.mem_map.mp h1
        obtain ⟨ent2, hent2, hsnd2⟩ := List.mem_map.mp h2
        obtain ⟨kv1, -, hokk1⟩ :=
          exceptMapM_all_ok (bundleEntry format) schema entries hmapm ent1 hent1
        obtain ⟨kv2, -, hokk2⟩ :=
          exceptMapM_all_ok (bundleEntry format) schema entries hmapm ent2 hent2
        rw [bundleEntry_ok format kv1 ent1 hokk1] at hsnd1
        rw [bundleEntry_ok format kv2 ent2 hokk2] at hsnd2
        obtain ⟨hk1a, hk1b⟩ := Prod.mk.injEq .. ▸ hsnd1
        obtain ⟨hk2a, hk2b⟩ := Prod.mk.injEq .. ▸ hsnd2
        have hf1 : e1.filename = sha1Hex kv1.1 ++ "." ++ format :=
          congrArg IndexEntry.filename hk1b.symm
        have hf2 : e2.filename = sha1Hex kv2.1 ++ "." ++ format :=
          congrArg IndexEntry.filename hk2b.symm
        rw [hf1, hf2, hk1a, hk2a] at heq
        have hs1 : sha1Hex k1 ++ "." ++ format = sha1Hex k1 ++ ("." ++ format) :=
          String.append_assoc _ _ _
        have hs2 : sha1Hex k2 ++ "." ++ format = sha1Hex k2 ++ ("." ++ format) :=
          String.append_assoc _ _ _
        rw [hs1, hs2] at heq
        exact hne (string_append_right_cancel _ _ _ heq)

theorem C10_bundle_filenames_witness :
    ((bundleSchema "out.zip"
        [("a", ⟨⟨"S", "m", [("x", ⟨Kind.anum, Option.none⟩)]⟩,
          [("x", ⟨Kind.anum, Option.none⟩, Value.arr [1])]⟩)] "npz").1 =
      .ok ⟨[("86f7e437faa5a7fce15d1ddcb9eaeaea377667b8.npz",
              FileContent.npz [("x", Value.arr [1])])],
            [("a", ⟨"86f7e437faa5a7fce15d1ddcb9eaeaea377667b8.npz", "S", "m"⟩)], 1⟩) ∧
    ((∀ key inst1, (key, inst1) ∈
          ([("a", ⟨⟨"S", "m", [("x", ⟨Kind.anum, Option.none⟩)]⟩,
            [("x", ⟨Kind.anum, Option.none⟩, Value.arr [1])]⟩)] :
              List (String × Inst)) →
        (key, (⟨sha1Hex key ++ "." ++ "npz", inst1.cls.name,
          inst1.cls.modName⟩ : IndexEntry)) ∈
          (⟨[("86f7e437faa5a7fce15d1ddcb9eaeaea377667b8.npz",
              FileContent.npz [("x", Value.arr [1])])],
            [("a", ⟨"86f7e437faa5a7fce15d1ddcb9eaeaea377667b8.npz", "S", "m"⟩)],
            1⟩ : Bundle).index) ∧
    (∀ k1 k2 e1 e2,
        (k1, e1) ∈ (⟨[("86f7e437faa5a7fce15d1ddcb9eaeaea377667b8.npz",
              FileContent.npz [("x", Value.arr [1])])],
            [("a", ⟨"86f7e437faa5a7fce15d1ddcb9eaeaea377667b8.npz", "S", "m"⟩)],
            1⟩ : Bundle).index →
        (k2, e2) ∈ (⟨[("86f7e437faa5a7fce15d1ddcb9eaeaea377667b8.npz",
              FileContent.npz [("x", Value.arr [1])])],
            [("a", ⟨"86f7e437faa5a7fce15d1ddcb9eaeaea377667b8.npz", "S", "m"⟩)],
            1⟩ : Bundle).index →
        sha1Hex k1 ≠ sha1Hex k2 → e1.filename ≠ e2.filename)) :=
  ⟨by decide,
    C10_bundle_filenames "out.zip"
      [("a", ⟨⟨"S", "m", [("x", ⟨Kind.anum, Option.none⟩)]⟩,
        [("x", ⟨Kind.anum, Option.none⟩, Value.arr [1])]⟩)] "npz"
      ⟨[("86f7e437faa5a7fce15d1ddcb9eaeaea377667b8.npz",
          FileContent.npz [("x", Value.arr [1])])],
        [("a", ⟨"86f7e437faa5a7fce15d1ddcb9eaeaea377667b8.npz", "S", "m"⟩)], 1⟩
      (by decide)⟩

/-- Decoding the elementwise UTF-8 encoding of a string array restores it. -/
theorem mapM_utf8_roundtrip (ss : List String) :
    (ss.map utf8Str).mapM utf8DecodeStr = some ss := by
  induction ss with
  | nil => rfl
  | cons s ss ih =>
    rw [List.map_cons, List.mapM_cons, utf8DecodeStr_utf8Str, ih]
    rfl

/-- ASCII strings of length at most 256 make it through the `<S256` /
`<U256` `astype` pair unchanged. -/
theorem ascii_roundtrip (s : String) (h : (s.data.all (fun c => c.toNat < 128) &&
    decide (s.data.length ≤ 256)) = true) :
    ∃ bs, asciiS256 s = some bs ∧ asciiU256 bs = some s := by
  rw [Bool.and_eq_true] at h
  obtain ⟨hascii, hlen⟩ := h
  have hlen2 : s.data.length ≤ 256 := of_decide_eq_true hlen
  refine ⟨(s.data.map Char.toNat).take 256, ?_, ?_⟩
  · unfold asciiS256
    rw [if_pos hascii]
  · exact asciiU256_asciiS256 s hascii hlen2 _ (by unfold asciiS256; rw [if_pos hascii])

/-- Record-array columns accepted by `recColsOk` survive the
unicode-to-bytes `astype` on save and the inverse `astype` on load. -/
theorem recCols_roundtrip (cols : List (String × Col)) (h : recColsOk cols = true) :
    ∃ cols2,
      cols.mapM (fun nc =>
          match nc.2 with
          | Col.strs ss => (ss.mapM asciiS256).map (fun bs => (nc.1, Col.bytes bs))
          | c => some (nc.1, c)) = some cols2 ∧
      cols2.mapM (fun nc =>
          match nc.2 with
          | Col.bytes bs => (bs.mapM asciiU256).map (fun ss => (nc.1, Col.strs ss))
          | c => some (nc.1, c)) = some cols := by
  apply optionMapM_inverse
  intro nc hnc
  have hcol : (match nc.2 with
      | Col.ints _ => true
      | Col.strs ss => ss.all (fun s => s.data.all (fun c => c.toNat < 128) &&
          decide (s.data.length ≤ 256))
      | Col.bytes _ => false) = true := by
    unfold recColsOk at h
    rw [List.all_eq_true] at h
    exact h nc hnc
  obtain ⟨nm, col⟩ := nc
  cases col with
  | ints xs => exact ⟨(nm, Col.ints xs), rfl, rfl⟩
  | strs ss =>
    have hss : ∀ s ∈ ss, (s.data.all (fun c => c.toNat < 128) &&
        decide (s.data.length ≤ 256)) = true := by
      rw [← List.all_eq_true]
      exact hcol
    obtain ⟨bss, hbss, hinv⟩ := optionMapM_inverse asciiS256 asciiU256 ss
      (fun s hs => ascii_roundtrip s (hss s hs))
    refine ⟨(nm, Col.bytes bss), ?_, ?_⟩
    · show (ss.mapM asciiS256).map (fun bs => (nm, Col.bytes bs)) =
        some (nm, Col.bytes bss)
      rw [hbss]
      rfl
    · show (bss.mapM asciiU256).map (fun ss2 => (nm, Col.strs ss2)) =
        some (nm, Col.strs ss)
      rw [hinv]
      rfl
  | bytes bs => exact Bool.noConfusion hcol

/-- Per-field round trip through `to_hdf` and `from_hdf` (default options,
string encoding and decoding on): an HDF5-representable populated value is
encoded to dataset data that decodes and coerces back to itself. -/
theorem hdfField_roundtrip (d : FieldDecl) (v : Value) (hrep : h5Rep d v = true)
    (hv : v ≠ Value.none) :
    ∃ data, hdfEncodeField d.kind.isArray true v = .ok data ∧
      ∃ w, hdfDecodeField d.kind.isArray true (typeStr data) data = .ok w ∧
        d.kind.coerce w = some v := by
  obtain ⟨kind, desc⟩ := d
  cases kind with
  | cnum =>
    cases v
    case num n => exact ⟨.num n, rfl, .num n, rfl, rfl⟩
    case none => exact absurd rfl hv
    all_goals exact Bool.noConfusion hrep
  | cstr =>
    cases v
    case str s => exact ⟨.str s, rfl, .str s, rfl, rfl⟩
    case none => exact absurd rfl hv
    all_goals exact Bool.noConfusion hrep
  | anum =>
    cases v
    case arr xs => exact ⟨.arr xs, rfl, .arr xs, rfl, rfl⟩
    case none => exact absurd rfl hv
    all_goals exact Bool.noConfusion hrep
  | astr =>
    cases v with
    | sarr ss =>
      refine ⟨.barr (ss.map utf8Str), rfl, .sarr ss, ?_, rfl⟩
      show (match (ss.map utf8Str).mapM utf8DecodeStr with
        | some ss2 => Except.ok (Value.sarr ss2)
        | Option.none => Except.error HdfErr.unicodeError) = Except.ok (Value.sarr ss)
      rw [mapM_utf8_roundtrip]
    | none => exact absurd rfl hv
    | num n => exact Bool.noConfusion hrep
    | str s => exact Bool.noConfusion hrep
    | num0d n => exact Bool.noConfusion hrep
    | str0d s => exact Bool.noConfusion hrep
    | none0d => exact Bool.noConfusion hrep
    | arr xs => exact Bool.noConfusion hrep
    | barr bs => exact Bool.noConfusion hrep
    | recarr cols => exact Bool.noConfusion hrep
    | pyobj => exact Bool.noConfusion hrep
  | arec =>
    cases v with
    | recarr cols =>
      have hcols : recColsOk cols = true := hrep
      obtain ⟨cols2, henc, hdec⟩ := recCols_roundtrip cols hcols
      refine ⟨.recarr cols2, ?_, .recarr cols, ?_, rfl⟩
      · show (match cols.mapM (fun nc =>
            match nc.2 with
            | Col.strs ss => (ss.mapM asciiS256).map (fun bs => (nc.1, Col.bytes bs))
            | c => some (nc.1, c)) with
          | some cols2 => Except.ok (Value.recarr cols2)
          | Option.none => Except.error HdfErr.unicodeError) =
            Except.ok (Value.recarr cols2)
        rw [henc]
      · show (match cols2.mapM (fun nc =>
            match nc.2 with
            | Col.bytes bs => (bs.mapM asciiU256).map (fun ss => (nc.1, Col.strs ss))
            | c => some (nc.1, c)) with
          | some cols3 => Except.ok (Value.recarr cols3)
          | Option.none => Except.error HdfErr.unicodeError) =
            Except.ok (Value.recarr cols)
        rw [hdec]
    | none => exact absurd rfl hv
    | num n => exact Bool.noConfusion hrep
    | str s => exact Bool.noConfusion hrep
    | num0d n => exact Bool.noConfusion hrep
    | str0d s => exact Bool.noConfusion hrep
    | none0d => exact Bool.noConfusion hrep
    | arr xs => exact Bool.noConfusion hrep
    | sarr ss => exact Bool.noConfusion hrep
    | barr bs => exact Bool.noConfusion hrep
    | pyobj => exact Bool.noConfusion hrep
  | aon =>
    cases v with
    | none => exact absurd rfl hv
    | arr xs => exact ⟨_, rfl, _, rfl, rfl⟩
    | sarr ss =>
      refine ⟨.barr (ss.map utf8Str), rfl, .sarr ss, ?_, rfl⟩
      show (match (ss.map utf8Str).mapM utf8DecodeStr with
        | some ss2 => Except.ok (Value.sarr ss2)
        | Option.none => Except.error HdfErr.unicodeError) = Except.ok (Value.sarr ss)
      rw [mapM_utf8_roundtrip]
    | recarr cols =>
      have hcols : recColsOk cols = true := hrep
      obtain ⟨cols2, henc, hdec⟩ := recCols_roundtrip cols hcols
      refine ⟨.recarr cols2, ?_, .recarr cols, ?_, rfl⟩
      · show (match cols.mapM (fun nc =>
            match nc.2 with
            | Col.strs ss => (ss.mapM asciiS256).map (fun bs => (nc.1, Col.bytes bs))
            | c => some (nc.1, c)) with
          | some cols2 => Except.ok (Value.recarr cols2)
          | Option.none => Except.error HdfErr.unicodeError) =
            Except.ok (Value.recarr cols2)
        rw [henc]
      · show (match cols2.mapM (fun nc =>
            match nc.2 with
            | Col.bytes bs => (bs.mapM asciiU256).map (fun ss => (nc.1, Col.strs ss))
            | c => some (nc.1, c)) with
          | some cols3 => Except.ok (Value.recarr cols3)
          | Option.none => Except.error HdfErr.unicodeError) =
            Except.ok (Value.recarr cols)
        rw [hdec]
    | num n => exact Bool.noConfusion hrep
    | str s => exact Bool.noConfusion hrep
    | num0d n => exact Bool.noConfusion hrep
    | str0d s => exact Bool.noConfusion hrep
    | none0d => exact Bool.noConfusion hrep
    | barr bs => exact Bool.noConfusion hrep
    | pyobj => exact Bool.noConfusion hrep

/-- The dataset names of `hdfDsetsOf` form a sublist of the field names. -/
theorem hdfDsetsOf_names_sublist :
    ∀ fields : List (String × FieldDecl × Value),
      ((hdfDsetsOf fields).map Prod.fst).Sublist (fields.map Prod.fst) := by
  intro fields
  induction fields with
  | nil => exact List.Sublist.refl _
  | cons fld rest ih =>
    obtain ⟨n, d, v⟩ := fld
    by_cases hv : v = Value.none
    · simp only [hdfDsetsOf, if_pos hv, List.map_cons]
      exact ih.cons _
    · cases henc : hdfEncodeField d.kind.isArray true v with
      | error e =>
        simp only [hdfDsetsOf, if_neg hv, henc, List.map_cons]
        exact ih.cons _
      | ok data =>
        simp only [hdfDsetsOf, if_neg hv, henc, List.map_cons]
        exact ih.cons₂ _

/-- Every dataset in `hdfDsetsOf` originates in a populated field. -/
theorem hdfDsetsOf_origin :
    ∀ fields : List (String × FieldDecl × Value),
      ∀ m ∈ (hdfDsetsOf fields).map Prod.fst,
        ∃ d v, (m, d, v) ∈ fields ∧ v ≠ Value.none := by
  intro fields
  induction fields with
  | nil =>
    intro m hm
    cases hm
  | cons fld rest ih =>
    intro m hm
    obtain ⟨n, d, v⟩ := fld
    by_cases hv : v = Value.none
    · simp only [hdfDsetsOf, if_pos hv] at hm
      obtain ⟨d2, v2, hmem, hne⟩ := ih m hm
      exact ⟨d2, v2, List.mem_cons_of_mem _ hmem, hne⟩
    · cases henc : hdfEncodeField d.kind.isArray true v with
      | error e =>
        simp only [hdfDsetsOf, if_neg hv, henc] at hm
        obtain ⟨d2, v2, hmem, hne⟩ := ih m hm
        exact ⟨d2, v2, List.mem_cons_of_mem _ hmem, hne⟩
      | ok data =>
        simp only [hdfDsetsOf, if_neg hv, henc, List.map_cons] at hm
        rcases List.mem_cons.mp hm with heq | hm2
        · subst heq
          exact ⟨d, v, List.mem_cons_self _ _, hv⟩
        · obtain ⟨d2, v2, hmem, hne⟩ := ih m hm2
          exact ⟨d2, v2, List.mem_cons_of_mem _ hmem, hne⟩

/-- A populated, encodable field appears in `hdfDsetsOf` with its encoded
data, `type` attribute and description. -/
theorem hdfDsetsOf_mem :
    ∀ (fields : List (String × FieldDecl × Value)) (n : String) (d : FieldDecl)
      (v : Value) (data : Value), (n, d, v) ∈ fields → v ≠ Value.none →
      hdfEncodeField d.kind.isArray true v = .ok data →
      (n, (⟨data, typeStr data, d.desc⟩ : Dset)) ∈ hdfDsetsOf fields := by
  intro fields
  induction fields with
  | nil =>
    intro n d v data hmem
    cases hmem
  | cons fld rest ih =>
    intro n d v data hmem hv henc
    rcases List.mem_cons.mp hmem with heq | hm2
    · subst heq
      simp only [hdfDsetsOf, if_neg hv, henc]
      exact List.mem_cons_self _ _
    · obtain ⟨n0, d0, v0⟩ := fld
      by_cases hv0 : v0 = Value.none
      · simp only [hdfDsetsOf, if_pos hv0]
        exact ih n d v data hm2 hv henc
      · cases henc0 : hdfEncodeField d0.kind.isArray true v0 with
        | error e =>
          simp only [hdfDsetsOf, if_neg hv0, henc0]
          exact ih n d v data hm2 hv henc
        | ok data0 =>
          simp only [hdfDsetsOf, if_neg hv0, henc0]
          exact List.mem_cons_of_mem _ (ih n d v data hm2 hv henc)

/-- With default options (no compression), the `to_hdf` field loop
succeeds on representable fields and writes exactly `hdfDsetsOf`. -/
theorem toHdfFields_rep_ok :
    ∀ fields : List (String × FieldDecl × Value),
      (∀ f ∈ fields, h5Rep f.2.1 f.2.2 = true) →
      (toHdfFields Option.none Option.none true fields).2 = .ok (hdfDsetsOf fields) := by
  intro fields
  induction fields with
  | nil => intro _; rfl
  | cons fld rest ih =>
    intro h
    obtain ⟨n, d, v⟩ := fld
    by_cases hv : v = Value.none
    · subst hv
      simp only [toHdfFields, hdfDsetsOf, if_pos rfl]
      exact ih (fun f hf => h f (List.mem_cons_of_mem _ hf))
    · obtain ⟨data, henc, -⟩ :=
        hdfField_roundtrip d v (h (n, d, v) (List.mem_cons_self _ _)) hv
      have hcond : (d.kind.isArray && ((Option.none : Option String) == some "lzf")
          && (Option.none : Option Int).isSome) = false := by
        simp
      simp only [toHdfFields, hdfDsetsOf, if_neg hv, henc, hcond, Bool.false_eq_true,
        if_false]
      rw [ih (fun f hf => h f (List.mem_cons_of_mem _ hf))]
      rfl

/-- `mapM` over a mapped list composes. -/
theorem exceptMapM_map {α β γ ε : Type} (g : α → β) (f : β → Except ε γ)
    (l : List α) : (l.map g).mapM f = l.mapM (fun a => f (g a)) := by
  induction l with
  | nil => rfl
  | cons a l ih => rw [List.map_cons, List.mapM_cons, List.mapM_cons, ih]

/-- Reading back the datasets `to_hdf` wrote restores the instance
exactly (default options, representable fields). -/
theorem fromHdf_hdfDsetsOf (inst : Inst) (hwf : inst.wf)
    (hrep : ∀ f ∈ inst.fields, h5Rep f.2.1 f.2.2 = true) :
    fromHdf inst.cls ⟨hdfDsetsOf inst.fields, inst.cls.name, inst.cls.modName⟩ true =
      .ok inst := by
  have hnames : inst.cls.decl.map Prod.fst = inst.fields.map Prod.fst := by
    rw [← hwf.1, List.map_map]
    rfl
  have hndfields : (inst.fields.map Prod.fst).Nodup := hnames ▸ hwf.2
  have hnddsof : ((hdfDsetsOf inst.fields).map Prod.fst).Nodup :=
    (hdfDsetsOf_names_sublist inst.fields).nodup hndfields
  have hdecl : inst.cls.decl = inst.fields.map (fun f => (f.1, f.2.1)) := hwf.1.symm
  unfold fromHdf
  rw [hdecl, exceptMapM_map]
  have hpoint : ∀ f ∈ inst.fields,
      fromHdfField ⟨hdfDsetsOf inst.fields, inst.cls.name, inst.cls.modName⟩ true
        (f.1, f.2.1) = .ok f := by
    intro f hf
    obtain ⟨n, d, v⟩ := f
    by_cases hv : v = Value.none
    · subst hv
      have hlk : lookupAssoc (hdfDsetsOf inst.fields) n = Option.none := by
        apply lookupAssoc_eq_none
        intro b hb
        obtain ⟨d2, v2, hmem2, hne2⟩ := hdfDsetsOf_origin inst.fields n
          (List.mem_map.mpr ⟨(n, b), hb, rfl⟩)
        have huniq : ((d, Value.none) : FieldDecl × Value) = (d2, v2) :=
          assoc_value_unique inst.fields hndfields n _ _ hf hmem2
        exact hne2 ((congrArg Prod.snd huniq).symm)
      have hdflt : d.kind.dflt = Value.none := by
        have hkind := hrep (n, d, Value.none) hf
        obtain ⟨kind, desc⟩ := d
        cases kind
        case aon => rfl
        all_goals exact Bool.noConfusion hkind
      simp only [fromHdfField, hlk, hdflt]
    · obtain ⟨data, henc, w, hdec, hco⟩ := hdfField_roundtrip d v (hrep _ hf) hv
      have hlk := lookupAssoc_of_mem (hdfDsetsOf inst.fields) hnddsof n
        ⟨data, typeStr data, d.desc⟩ (hdfDsetsOf_mem inst.fields n d v data hf hv henc)
      simp only [fromHdfField, hlk, hdec, hco]
  rw [exceptMapM_ok_of_forall (fun a => fromHdfField
      ⟨hdfDsetsOf inst.fields, inst.cls.name, inst.cls.modName⟩ true (a.1, a.2.1))
      (fun a => a) inst.fields hpoint]
  show Except.ok (⟨inst.cls, inst.fields.map (fun a => a)⟩ : Inst) = .ok inst
  rw [List.map_id']

/-- HDF5 round trip: saving an instance whose fields are all
HDF5-representable and loading the resulting file (default options)
restores the instance exactly. -/
theorem h5_roundtrip (inst : Inst) (hwf : inst.wf)
    (hrep : ∀ f ∈ inst.fields, h5Rep f.2.1 f.2.2 = true) :
    (toHdf inst "w" Option.none Option.none true).2 =
      .ok ⟨hdfDsetsOf inst.fields, inst.cls.name, inst.cls.modName⟩ ∧
    fromHdf inst.cls ⟨hdfDsetsOf inst.fields, inst.cls.name, inst.cls.modName⟩ true =
      .ok inst := by
  constructor
  · show ((toHdfFields Option.none Option.none true inst.fields).2).map _ = _
    rw [toHdfFields_rep_ok inst.fields hrep]
    rfl
  · exact fromHdf_hdfDsetsOf inst hwf hrep

/-- `Schema.__eq__` is reflexive on instances with distinct field names. -/
theorem schemaEq_self (inst : Inst) (hnd : (inst.fields.map Prod.fst).Nodup) :
    schemaEq inst inst = true := by
  unfold schemaEq
  rw [List.all_eq_true]
  intro f hf
  have hmem : (f.1, f.2.1, f.2.2) ∈ inst.fields := by
    simpa using hf
  rw [getField_of_mem inst hnd f.1 f.2.1 f.2.2 hmem]
  simp [valueEq]

/-- C8: an array of unicode strings stored in a field, saved to HDF5 with
string encoding enabled (the default utf-8 codec) and loaded with string
decoding enabled and the same codec, comes back as exactly the original
unicode strings. -/
theorem C8_unicode_roundtrip (inst : Inst) (hwf : inst.wf)
    (n : String) (dsc : Option String) (ss : List String)
    (hmem : (n, ⟨Kind.astr, dsc⟩, Value.sarr ss) ∈ inst.fields)
    (hrep : ∀ f ∈ inst.fields, h5Rep f.2.1 f.2.2 = true) :
    ∃ hfile inst2,
      (toHdf inst "w" Option.none Option.none true).2 = .ok hfile ∧
      fromHdf inst.cls hfile true = .ok inst2 ∧
      getField inst2 n = some (Value.sarr ss) := by
  obtain ⟨h1, h2⟩ := h5_roundtrip inst hwf hrep
  refine ⟨_, inst, h1, h2, ?_⟩
  have hnames : inst.cls.decl.map Prod.fst = inst.fields.map Prod.fst := by
    rw [← hwf.1, List.map_map]
    rfl
  have hndfields : (inst.fields.map Prod.fst).Nodup := hnames ▸ hwf.2
  exact getField_of_mem inst hndfields n ⟨Kind.astr, dsc⟩ (Value.sarr ss) hmem

theorem C8_unicode_roundtrip_witness :
    (⟨⟨"S", "m", [("z", ⟨Kind.astr, Option.none⟩)]⟩,
      [("z", ⟨Kind.astr, Option.none⟩, Value.sarr ["héllo", "snow☃"])]⟩ : Inst).wf ∧
    (∃ hfile inst2,
      (toHdf ⟨⟨"S", "m", [("z", ⟨Kind.astr, Option.none⟩)]⟩,
        [("z", ⟨Kind.astr, Option.none⟩, Value.sarr ["héllo", "snow☃"])]⟩
        "w" Option.none Option.none true).2 = .ok hfile ∧
      fromHdf (⟨"S", "m", [("z", ⟨Kind.astr, Option.none⟩)]⟩ : SchemaClass)
        hfile true = .ok inst2 ∧
      getField inst2 "z" = some (Value.sarr ["héllo", "snow☃"])) :=
  ⟨by decide,
    C8_unicode_roundtrip
      ⟨⟨"S", "m", [("z", ⟨Kind.astr, Option.none⟩)]⟩,
        [("z", ⟨Kind.astr, Option.none⟩, Value.sarr ["héllo", "snow☃"])]⟩
      (by decide) "z" Option.none ["héllo", "snow☃"] (by decide) (by decide)⟩

/-! Inversion of the textual JSON model: parsing what `renderTop` prints
returns the original data.  The decimal lemmas follow the usual
accumulator/fuel pattern. -/

theorem natDigitsAux_acc : ∀ (fuel n : Nat) (acc : List Char),
    natDigitsAux fuel n acc = natDigitsAux fuel n [] ++ acc := by
  intro fuel
  induction fuel with
  | zero =>
    intro n acc
    simp [natDigitsAux]
  | succ fuel ih =>
    intro n acc
    simp only [natDigitsAux]
    split
    · simp
    · rw [ih (n / 10) (Char.ofNat (48 + n % 10) :: acc),
        ih (n / 10) [Char.ofNat (48 + n % 10)], List.append_assoc]
      rfl

theorem natDigitsAux_fuel : ∀ (n fuel1 fuel2 : Nat), n < fuel1 → n < fuel2 →
    natDigitsAux fuel1 n [] = natDigitsAux fuel2 n [] := by
  intro n
  induction n using Nat.strongRecOn with
  | _ n ih =>
    intro fuel1 fuel2 h1 h2
    match fuel1, h1 with
    | fuel1 + 1, h1 =>
      match fuel2, h2 with
      | fuel2 + 1, h2 =>
        simp only [natDigitsAux]
        split
        · rfl
        · rename_i h10
          rw [natDigitsAux_acc fuel1 (n / 10) [Char.ofNat (48 + n % 10)],
            natDigitsAux_acc fuel2 (n / 10) [Char.ofNat (48 + n % 10)],
            ih (n / 10) (by omega) fuel1 fuel2 (by omega) (by omega)]

theorem digitChar_props : ∀ d : Nat, d < 10 →
    isDig (Char.ofNat (48 + d)) = true ∧ (Char.ofNat (48 + d)).toNat = 48 + d := by
  decide

theorem natDigitsAux_digits : ∀ (n fuel : Nat), n < fuel →
    ∀ c ∈ natDigitsAux fuel n [], isDig c = true := by
  intro n
  induction n using Nat.strongRecOn with
  | _ n ih =>
    intro fuel h c hc
    match fuel, h with
    | fuel + 1, h =>
      simp only [natDigitsAux] at hc
      by_cases h10 : n < 10
      · rw [if_pos h10] at hc
        simp only [List.mem_singleton] at hc
        subst hc
        exact (digitChar_props (n % 10) (by omega)).1
      · rw [if_neg h10,
          natDigitsAux_acc fuel (n / 10) [Char.ofNat (48 + n % 10)]] at hc
        rcases List.mem_append.mp hc with h1 | h2
        · exact ih (n / 10) (by omega) fuel (by omega) c h1
        · simp only [List.mem_singleton] at h2
          subst h2
          exact (digitChar_props (n % 10) (by omega)).1

theorem natDigitsAux_ne_nil (n fuel : Nat) (h : n < fuel) :
    natDigitsAux fuel n [] ≠ [] := by
  match fuel, h with
  | fuel + 1, h =>
    simp only [natDigitsAux]
    split
    · simp
    · rw [natDigitsAux_acc fuel (n / 10) [Char.ofNat (48 + n % 10)]]
      simp

theorem readNat_natDigitsAux : ∀ n : Nat,
    readNat (natDigitsAux (n + 1) n []) = n := by
  intro n
  induction n using Nat.strongRecOn with
  | _ n ih =>
    simp only [natDigitsAux]
    by_cases h10 : n < 10
    · rw [if_pos h10]
      unfold readNat
      simp only [List.foldl_cons, List.foldl_nil]
      rw [(digitChar_props (n % 10) (by omega)).2]
      omega
    · rw [if_neg h10, natDigitsAux_acc n (n / 10) [Char.ofNat (48 + n % 10)],
        natDigitsAux_fuel (n / 10) n (n / 10 + 1) (by omega) (by omega)]
      unfold readNat
      rw [List.foldl_append]
      have hih := ih (n / 10) (by omega)
      unfold readNat at hih
      rw [hih]
      simp only [List.foldl_cons, List.foldl_nil]
      rw [(digitChar_props (n % 10) (by omega)).2]
      omega

theorem natChars_digits (n : Nat) : ∀ c ∈ natChars n, isDig c = true :=
  natDigitsAux_digits n (n + 1) (by omega)

theorem natChars_ne_nil (n : Nat) : natChars n ≠ [] :=
  natDigitsAux_ne_nil n (n + 1) (by omega)

theorem readNat_natChars (n : Nat) : readNat (natChars n) = n :=
  readNat_natDigitsAux n

theorem takeWhile_append_all {p : Char → Bool} :
    ∀ (xs rest : List Char), (∀ c ∈ xs, p c = true) →
      (∀ c, rest.head? = some c → p c = false) →
      (xs ++ rest).takeWhile p = xs := by
  intro xs
  induction xs with
  | nil =>
    intro rest _ hrest
    cases rest with
    | nil => rfl
    | cons r rs =>
      have hr := hrest r rfl
      simp [List.takeWhile, hr]
  | cons x xs ih =>
    intro rest hxs hrest
    have hx := hxs x (List.mem_cons_self _ _)
    simp only [List.cons_append, List.takeWhile, hx]
    exact congrArg (x :: ·) (ih rest (fun c hc => hxs c (List.mem_cons_of_mem _ hc)) hrest)

theorem dropWhile_append_all {p : Char → Bool} :
    ∀ (xs rest : List Char), (∀ c ∈ xs, p c = true) →
      (∀ c, rest.head? = some c → p c = false) →
      (xs ++ rest).dropWhile p = rest := by
  intro xs
  induction xs with
  | nil =>
    intro rest _ hrest
    cases rest with
    | nil => rfl
    | cons r rs =>
      have hr := hrest r rfl
      simp [List.dropWhile, hr]
  | cons x xs ih =>
    intro rest hxs hrest
    have hx := hxs x (List.mem_cons_self _ _)
    simp only [List.cons_append, List.dropWhile, hx]
    exact ih rest (fun c hc => hxs c (List.mem_cons_of_mem _ hc)) hrest

theorem span_append_all {p : Char → Bool} (xs rest : List Char)
    (hxs : ∀ c ∈ xs, p c = true)
    (hrest : ∀ c, rest.head? = some c → p c = false) :
    (xs ++ rest).span p = (xs, rest) := by
  rw [List.span_eq_take_drop, takeWhile_append_all xs rest hxs hrest,
    dropWhile_append_all xs rest hxs hrest]

theorem parseNat_inv (n : Nat) (rest : List Char)
    (hrest : ∀ c, rest.head? = some c → isDig c = false) :
    parseNat (natChars n ++ rest) = some (n, rest) := by
  unfold parseNat
  rw [span_append_all (natChars n) rest (natChars_digits n) hrest]
  have hne : (natChars n).isEmpty = false := by
    cases hnc : natChars n with
    | nil => exact absurd hnc (natChars_ne_nil n)
    | cons c cs => rfl
  show (if (natChars n).isEmpty = true then Option.none
    else some (readNat (natChars n), rest)) = some (n, rest)
  rw [hne]
  simp only [Bool.false_eq_true, if_false, readNat_natChars]

theorem parseInt_inv (n : Int) (rest : List Char)
    (hrest : ∀ c, rest.head? = some c → isDig c = false) :
    parseInt (renderInt n ++ rest) = some (n, rest) := by
  cases n with
  | ofNat m =>
    cases hnc : natChars m with
    | nil => exact absurd hnc (natChars_ne_nil m)
    | cons c cs =>
      have hcd : isDig c = true := natChars_digits m c (by rw [hnc]; exact List.mem_cons_self _ _)
      have hcne : ¬ c = '-' := by
        intro he
        rw [he] at hcd
        exact Bool.noConfusion hcd
      have hshape : renderInt (Int.ofNat m) ++ rest = c :: (cs ++ rest) := by
        show natChars m ++ rest = c :: (cs ++ rest)
        rw [hnc]
        rfl
      rw [hshape]
      show (if c = '-' then (parseNat (cs ++ rest)).map (fun nr => (-(nr.1 : Int), nr.2))
        else (parseNat (c :: (cs ++ rest))).map (fun nr => ((nr.1 : Int), nr.2))) =
          some (Int.ofNat m, rest)
      rw [if_neg hcne]
      have hcc : c :: (cs ++ rest) = natChars m ++ rest := by
        rw [hnc]
        rfl
      rw [hcc, parseNat_inv m rest hrest]
      rfl
  | negSucc m =>
    have hshape : renderInt (Int.negSucc m) ++ rest = '-' :: (natChars (m + 1) ++ rest) := rfl
    rw [hshape]
    show (if ('-' : Char) = '-' then
        (parseNat (natChars (m + 1) ++ rest)).map (fun nr => (-(nr.1 : Int), nr.2))
      else (parseNat ('-' :: (natChars (m + 1) ++ rest))).map
        (fun nr => ((nr.1 : Int), nr.2))) = some (Int.negSucc m, rest)
    rw [if_pos rfl, parseNat_inv (m + 1) rest hrest]
    show some (-((m : Nat) + 1 : Int), rest) = some (Int.negSucc m, rest)
    have hneg : -((m : Nat) + 1 : Int) = Int.negSucc m := by
      rw [Int.negSucc_eq]
    rw [hneg]

theorem jsonStrOk_no_quote (s : String) (hok : jsonStrOk s = true) :
    ∀ c ∈ s.data, (c != '"') = true := by
  intro c hc
  unfold jsonStrOk at hok
  rw [List.all_eq_true] at hok
  have h2 := hok c hc
  simp only [Bool.and_eq_true] at h2
  exact h2.1.1

theorem parseStr_inv (s : String) (hok : jsonStrOk s = true) (rest : List Char) :
    parseStr (renderStr s ++ rest) = some (s, rest) := by
  have hshape : renderStr s ++ rest = '"' :: (s.data ++ '"' :: rest) := by
    unfold renderStr
    simp
  have hq : ∀ c, (('"' :: rest) : List Char).head? = some c → (c != '"') = false := by
    intro c hc
    cases hc
    rfl
  rw [hshape]
  show (match (s.data ++ '"' :: rest).span (fun ch => ch != '"') with
    | (content, q :: rest2) =>
      if q = '"' then some (String.mk content, rest2) else Option.none
    | (_, []) => Option.none) = some (s, rest)
  rw [span_append_all s.data ('"' :: rest) (jsonStrOk_no_quote s hok) hq]
  show (if ('"' : Char) = '"' then some (String.mk s.data, rest) else Option.none) =
    some (s, rest)
  rw [if_pos rfl]

theorem parseScalar_inv (j : Json) (hok : scalarOk j = true) (rest : List Char)
    (hrest : ∀ c, rest.head? = some c → isDig c = false) :
    parseScalar (renderScalar j ++ rest) = some (j, rest) := by
  cases j with
  | jnull => rfl
  | jstr s =>
    have hshape : renderScalar (Json.jstr s) ++ rest = '"' :: (s.data ++ '"' :: rest) := by
      show renderStr s ++ rest = _
      unfold renderStr
      simp
    rw [hshape]
    show (parseStr ('"' :: (s.data ++ '"' :: rest))).map
      (fun sr => (Json.jstr sr.1, sr.2)) = some (Json.jstr s, rest)
    rw [← hshape]
    show (parseStr (renderStr s ++ rest)).map (fun sr => (Json.jstr sr.1, sr.2)) = _
    rw [parseStr_inv s hok rest]
    rfl
  | jnum n =>
    have hhead : ∃ c cs, renderInt n = c :: cs ∧ (isDig c = true ∨ c = '-') := by
      cases n with
      | ofNat m =>
        cases hnc : natChars m with
        | nil => exact absurd hnc (natChars_ne_nil m)
        | cons c cs =>
          refine ⟨c, cs, hnc, Or.inl ?_⟩
          exact natChars_digits m c (by rw [hnc]; exact List.mem_cons_self _ _)
      | negSucc m => exact ⟨'-', natChars (m + 1), rfl, Or.inr rfl⟩
    obtain ⟨c, cs, hnc, hc⟩ := hhead
    have hc1 : ¬ c = '"' := by
      rcases hc with hd | hm
      · intro he
        rw [he] at hd
        exact Bool.noConfusion hd
      · rw [hm]
        decide
    have hc2 : ¬ c = 'n' := by
      rcases hc with hd | hm
      · intro he
        rw [he] at hd
        exact Bool.noConfusion hd
      · rw [hm]
        decide
    have hshape : renderScalar (Json.jnum n) ++ rest = c :: (cs ++ rest) := by
      show renderInt n ++ rest = _
      rw [hnc]
      rfl
    rw [hshape]
    simp only [parseScalar, if_neg hc1, if_neg hc2]
    have hback : c :: (cs ++ rest) = renderInt n ++ rest := by
      rw [hnc]
      rfl
    rw [hback, parseInt_inv n rest hrest]
    rfl
  | jarr es => exact Bool.noConfusion hok

theorem optionSomeBind {α β : Type} (a : α) (f : α → Option β) :
    ((some a : Option α) >>= f) = f a := rfl

theorem renderScalar_head_ne (j : Json) (hok : scalarOk j = true) :
    ∃ c cs, renderScalar j = c :: cs ∧ ¬ c = ']' ∧ ¬ c = '[' := by
  cases j with
  | jnull => exact ⟨'n', ['u', 'l', 'l'], rfl, by decide, by decide⟩
  | jnum n =>
    cases n with
    | ofNat m =>
      cases hnc : natChars m with
      | nil => exact absurd hnc (natChars_ne_nil m)
      | cons c cs =>
        have hd := natChars_digits m c (by rw [hnc]; exact List.mem_cons_self _ _)
        refine ⟨c, cs, ?_, ?_, ?_⟩
        · show natChars m = c :: cs
          exact hnc
        · intro he
          rw [he] at hd
          exact absurd hd (by decide)
        · intro he
          rw [he] at hd
          exact absurd hd (by decide)
    | negSucc m => exact ⟨'-', natChars (m + 1), rfl, by decide, by decide⟩
  | jstr s =>
    refine ⟨'"', s.data ++ ['"'], ?_, by decide, by decide⟩
    show renderStr s = _
    rfl
  | jarr es => exact Bool.noConfusion hok

theorem parseElemsAux_inv (es : List Json) (hok : ∀ j ∈ es, scalarOk j = true)
    (fuel : Nat) (hfuel : es.length ≤ fuel) (rest : List Char) :
    parseElemsAux fuel (sepByComma (es.map renderScalar) ++ ']' :: rest) =
      some (es, rest) := by
  induction es generalizing fuel rest with
  | nil =>
    show parseElemsAux fuel (']' :: rest) = some ([], rest)
    cases fuel <;> rfl
  | cons j js ih =>
    have hokj := hok j (List.mem_cons_self _ _)
    obtain ⟨c, cs, hrc, hcne, -⟩ := renderScalar_head_ne j hokj
    cases fuel with
    | zero => exact absurd hfuel (by simp)
    | succ fuel =>
      have hfuel2 : js.length ≤ fuel := by
        simp only [List.length_cons] at hfuel
        omega
      cases js with
      | nil =>
        have hshape : sepByComma ((j :: []).map renderScalar) ++ ']' :: rest =
            c :: (cs ++ ']' :: rest) := by
          show renderScalar j ++ ']' :: rest = _
          rw [hrc]
          rfl
        rw [hshape]
        have hps : parseScalar (c :: (cs ++ ']' :: rest)) = some (j, ']' :: rest) := by
          have hb : c :: (cs ++ ']' :: rest) = renderScalar j ++ ']' :: rest := by
            rw [hrc]
            rfl
          rw [hb]
          exact parseScalar_inv j hokj (']' :: rest) (by intro x hx; cases hx; decide)
        simp only [parseElemsAux, if_neg hcne, hps, optionSomeBind]
      | cons j2 js2 =>
        have hshape : sepByComma ((j :: j2 :: js2).map renderScalar) ++ ']' :: rest =
            c :: (cs ++ ',' ::
              (sepByComma ((j2 :: js2).map renderScalar) ++ ']' :: rest)) := by
          show (renderScalar j ++ ',' :: sepByComma ((j2 :: js2).map renderScalar)) ++
            ']' :: rest = _
          rw [hrc]
          simp
        rw [hshape]
        have hps : parseScalar (c :: (cs ++ ',' ::
            (sepByComma ((j2 :: js2).map renderScalar) ++ ']' :: rest))) =
            some (j, ',' ::
              (sepByComma ((j2 :: js2).map renderScalar) ++ ']' :: rest)) := by
          have hb : c :: (cs ++ ',' ::
              (sepByComma ((j2 :: js2).map renderScalar) ++ ']' :: rest)) =
              renderScalar j ++ ',' ::
                (sepByComma ((j2 :: js2).map renderScalar) ++ ']' :: rest) := by
            rw [hrc]
            rfl
          rw [hb]
          exact parseScalar_inv j hokj _ (by intro x hx; cases hx; decide)
        have hih := ih (fun x hx => hok x (List.mem_cons_of_mem _ hx)) fuel hfuel2 rest
        simp only [parseElemsAux, if_neg hcne, hps, optionSomeBind, hih]
        rfl

theorem parseFieldVal_scalar (j : Json) (hok : scalarOk j = true)
    (hrfv : renderFieldVal j = renderScalar j)
    (rest : List Char) (hrest : ∀ c, rest.head? = some c → isDig c = false) :
    parseFieldVal (renderFieldVal j ++ rest) = some (j, rest) := by
  obtain ⟨c, cs, hrc, -, hc2⟩ := renderScalar_head_ne j hok
  have hshape : renderFieldVal j ++ rest = c :: (cs ++ rest) := by
    rw [hrfv, hrc]
    rfl
  rw [hshape]
  simp only [parseFieldVal, if_neg hc2]
  have hback : c :: (cs ++ rest) = renderScalar j ++ rest := by
    rw [hrc]
    rfl
  rw [hback, parseScalar_inv j hok rest hrest]

theorem sepByComma_scalar_length (es : List Json) :
    es.length ≤ (sepByComma (es.map renderScalar)).length + 1 := by
  induction es with
  | nil => simp [sepByComma]
  | cons j js ih =>
    cases js with
    | nil =>
      show ([j] : List Json).length ≤ (renderScalar j).length + 1
      simp
    | cons j2 js2 =>
      show (j :: j2 :: js2).length ≤
        (renderScalar j ++ ',' :: sepByComma ((j2 :: js2).map renderScalar)).length + 1
      simp only [List.length_append, List.length_cons]
      simp only [List.length_cons] at ih
      omega

theorem parseFieldVal_inv (j : Json) (hok : fieldOk j = true) (rest : List Char)
    (hrest : ∀ c, rest.head? = some c → isDig c = false) :
    parseFieldVal (renderFieldVal j ++ rest) = some (j, rest) := by
  cases j with
  | jnull => exact parseFieldVal_scalar Json.jnull hok rfl rest hrest
  | jnum n => exact parseFieldVal_scalar (Json.jnum n) hok rfl rest hrest
  | jstr s => exact parseFieldVal_scalar (Json.jstr s) hok rfl rest hrest
  | jarr es =>
    have hok2 : ∀ x ∈ es, scalarOk x = true := by
      have hall : es.all scalarOk = true := hok
      exact fun x hx => List.all_eq_true.mp hall x hx
    have hshape : renderFieldVal (Json.jarr es) ++ rest =
        '[' :: (sepByComma (es.map renderScalar) ++ ']' :: rest) := by
      show ('[' :: sepByComma (es.map renderScalar) ++ [']']) ++ rest = _
      simp
    rw [hshape]
    have hf : es.length ≤ (sepByComma (es.map renderScalar) ++ ']' :: rest).length := by
      have h2 := sepByComma_scalar_length es
      simp only [List.length_append, List.length_cons]
      omega
    show (parseElemsAux (sepByComma (es.map renderScalar) ++ ']' :: rest).length
        (sepByComma (es.map renderScalar) ++ ']' :: rest)).map
        (fun er => (Json.jarr er.1, er.2)) = some (Json.jarr es, rest)
    rw [parseElemsAux_inv es hok2
      ((sepByComma (es.map renderScalar) ++ ']' :: rest).length) hf rest]
    rfl

theorem sepByComma_pair_length (kvs : List (String × Json)) :
    kvs.length ≤ (sepByComma (kvs.map renderPair)).length + 1 := by
  induction kvs with
  | nil => simp [sepByComma]
  | cons kv kvs ih =>
    cases kvs with
    | nil =>
      show ([kv] : List (String × Json)).length ≤ (renderPair kv).length + 1
      simp
    | cons kv2 kvs2 =>
      show (kv :: kv2 :: kvs2).length ≤
        (renderPair kv ++ ',' :: sepByComma ((kv2 :: kvs2).map renderPair)).length + 1
      simp only [List.length_append, List.length_cons]
      simp only [List.length_cons] at ih
      omega

theorem parsePairsAux_inv (kvs : List (String × Json))
    (hok : ∀ kv ∈ kvs, jsonStrOk kv.1 = true ∧ fieldOk kv.2 = true)
    (fuel : Nat) (hfuel : kvs.length ≤ fuel) (rest : List Char) :
    parsePairsAux fuel (sepByComma (kvs.map renderPair) ++ '\x7d' :: rest) =
      some (kvs, rest) := by
  induction kvs generalizing fuel rest with
  | nil =>
    show parsePairsAux fuel ('\x7d' :: rest) = some ([], rest)
    cases fuel <;> rfl
  | cons kv kvs ih =>
    obtain ⟨k, v⟩ := kv
    have hokkv := hok (k, v) (List.mem_cons_self _ _)
    cases fuel with
    | zero => exact absurd hfuel (by simp)
    | succ fuel =>
      have hfuel2 : kvs.length ≤ fuel := by
        simp only [List.length_cons] at hfuel
        omega
      cases kvs with
      | nil =>
        have hshape : sepByComma (((k, v) :: []).map renderPair) ++ '\x7d' :: rest =
            '"' :: ((k.data ++ ['"']) ++ ':' :: (renderFieldVal v ++ '\x7d' :: rest)) := by
          show ((('"' :: k.data) ++ ['"']) ++ ':' :: renderFieldVal v) ++ '\x7d' :: rest = _
          simp
        rw [hshape]
        have hps : parseStr ('"' ::
            ((k.data ++ ['"']) ++ ':' :: (renderFieldVal v ++ '\x7d' :: rest))) =
            some (k, ':' :: (renderFieldVal v ++ '\x7d' :: rest)) := by
          have hb : '"' :: ((k.data ++ ['"']) ++ ':' :: (renderFieldVal v ++ '\x7d' :: rest)) =
              renderStr k ++ (':' :: (renderFieldVal v ++ '\x7d' :: rest)) := by
            show _ = (('"' :: k.data) ++ ['"']) ++ _
            simp
          rw [hb]
          exact parseStr_inv k hokkv.1 _
        have hfv : parseFieldVal (renderFieldVal v ++ '\x7d' :: rest) =
            some (v, '\x7d' :: rest) :=
          parseFieldVal_inv v hokkv.2 _ (by intro x hx; cases hx; decide)
        simp only [parsePairsAux, if_neg (show ¬ ('"' : Char) = '\x7d' by decide),
          hps, optionSomeBind, hfv]
      | cons kv2 kvs2 =>
        have hshape : sepByComma (((k, v) :: kv2 :: kvs2).map renderPair) ++ '\x7d' :: rest =
            '"' :: ((k.data ++ ['"']) ++ ':' :: (renderFieldVal v ++ ',' ::
              (sepByComma ((kv2 :: kvs2).map renderPair) ++ '\x7d' :: rest))) := by
          show (((('"' :: k.data) ++ ['"']) ++ ':' :: renderFieldVal v) ++
            ',' :: sepByComma ((kv2 :: kvs2).map renderPair)) ++ '\x7d' :: rest = _
          simp
        rw [hshape]
        have hps : parseStr ('"' :: ((k.data ++ ['"']) ++ ':' :: (renderFieldVal v ++ ',' ::
            (sepByComma ((kv2 :: kvs2).map renderPair) ++ '\x7d' :: rest)))) =
            some (k, ':' :: (renderFieldVal v ++ ',' ::
              (sepByComma ((kv2 :: kvs2).map renderPair) ++ '\x7d' :: rest))) := by
          have hb : '"' :: ((k.data ++ ['"']) ++ ':' :: (renderFieldVal v ++ ',' ::
              (sepByComma ((kv2 :: kvs2).map renderPair) ++ '\x7d' :: rest))) =
              renderStr k ++ (':' :: (renderFieldVal v ++ ',' ::
                (sepByComma ((kv2 :: kvs2).map renderPair) ++ '\x7d' :: rest))) := by
            show _ = (('"' :: k.data) ++ ['"']) ++ _
            simp
          rw [hb]
          exact parseStr_inv k hokkv.1 _
        have hfv : parseFieldVal (renderFieldVal v ++ ',' ::
            (sepByComma ((kv2 :: kvs2).map renderPair) ++ '\x7d' :: rest)) =
            some (v, ',' ::
              (sepByComma ((kv2 :: kvs2).map renderPair) ++ '\x7d' :: rest)) :=
          parseFieldVal_inv v hokkv.2 _ (by intro x hx; cases hx; decide)
        have hih := ih (fun x hx => hok x (List.mem_cons_of_mem _ hx)) fuel hfuel2 rest
        simp only [parsePairsAux, if_neg (show ¬ ('"' : Char) = '\x7d' by decide),
          hps, optionSomeBind, hfv, hih]
        rfl

theorem jsonLoads_renderTop (kvs : List (String × Json))
    (hok : ∀ kv ∈ kvs, jsonStrOk kv.1 = true ∧ fieldOk kv.2 = true) :
    jsonLoads (String.mk (renderTop kvs)) = some kvs := by
  have hlen : kvs.length ≤ (sepByComma (kvs.map renderPair) ++ ['\x7d']).length := by
    have h2 := sepByComma_pair_length kvs
    simp only [List.length_append, List.length_cons, List.length_nil]
    omega
  have hmain := parsePairsAux_inv kvs hok
    ((sepByComma (kvs.map renderPair) ++ ['\x7d']).length) hlen []
  show (match parsePairsAux ((sepByComma (kvs.map renderPair) ++ ['\x7d']).length)
      (sepByComma (kvs.map renderPair) ++ ['\x7d']) with
    | some (kvs2, []) => some kvs2
    | _ => Option.none) = some kvs
  rw [hmain]

theorem list_map_id_of_mem {α : Type} (l : List α) (f : α → α)
    (h : ∀ x ∈ l, f x = x) : l.map f = l := by
  induction l with
  | nil => rfl
  | cons a t ih =>
    simp only [List.map_cons, h a (List.mem_cons_self _ _),
      ih (fun x hx => h x (List.mem_cons_of_mem _ hx))]

theorem exceptPureBind {ε α β : Type} (a : α) (f : α → Except ε β) :
    ((pure a : Except ε α) >>= f) = f a := rfl

theorem construct_fields_roundtrip (inst : Inst) (hwf : inst.wf)
    (encv : Value → Value)
    (hcoe : ∀ f ∈ inst.fields, f.2.1.kind.coerce (encv f.2.2) = some f.2.2) :
    construct inst.cls (inst.fields.map (fun f => (f.1, encv f.2.2))) = .ok inst := by
  obtain ⟨halign, hnd⟩ := hwf
  have hndf : (inst.fields.map Prod.fst).Nodup := by
    have he : inst.cls.decl.map Prod.fst = inst.fields.map Prod.fst := by
      rw [← halign, List.map_map]
      rfl
    rw [← he]
    exact hnd
  have hdecl : ∀ f ∈ inst.fields, lookupAssoc inst.cls.decl f.1 = some f.2.1 := by
    intro f hf
    have hmem : (f.1, f.2.1) ∈ inst.cls.decl := by
      rw [← halign]
      exact List.mem_map.mpr ⟨f, hf, rfl⟩
    exact lookupAssoc_of_mem _ hnd f.1 f.2.1 hmem
  have hkw : ∀ f ∈ inst.fields,
      lookupAssoc (inst.fields.map (fun g => (g.1, encv g.2.2))) f.1 =
        some (encv f.2.2) := by
    intro f hf
    have hndk : ((inst.fields.map (fun g => (g.1, encv g.2.2))).map Prod.fst).Nodup := by
      have he2 : (inst.fields.map (fun g => (g.1, encv g.2.2))).map Prod.fst =
          inst.fields.map Prod.fst := by
        rw [List.map_map]
        rfl
      rw [he2]
      exact hndf
    exact lookupAssoc_of_mem _ hndk f.1 (encv f.2.2) (List.mem_map.mpr ⟨f, hf, rfl⟩)
  have hfind1 : (inst.fields.map (fun f => (f.1, encv f.2.2))).find? (fun kv =>
      match lookupAssoc inst.cls.decl kv.1 with
      | some d => (d.kind.coerce kv.2).isNone
      | Option.none => false) = Option.none := by
    rw [List.find?_eq_none]
    intro kv hkv
    obtain ⟨f, hf, hfeq⟩ := List.mem_map.mp hkv
    subst hfeq
    simp only [hdecl f hf, hcoe f hf]
    simp
  have hfind2 : (inst.fields.map (fun f => (f.1, encv f.2.2))).find? (fun kv =>
      (lookupAssoc inst.cls.decl kv.1).isNone) = Option.none := by
    rw [List.find?_eq_none]
    intro kv hkv
    obtain ⟨f, hf, hfeq⟩ := List.mem_map.mp hkv
    subst hfeq
    simp only [hdecl f hf]
    simp
  have hfields : inst.cls.decl.map (fun nd => (nd.1, nd.2,
      ((lookupAssoc (inst.fields.map (fun f => (f.1, encv f.2.2))) nd.1).bind
        nd.2.kind.coerce).getD nd.2.kind.dflt)) = inst.fields := by
    rw [← halign, List.map_map]
    apply list_map_id_of_mem
    intro x hx
    show (x.1, x.2.1,
      ((lookupAssoc (inst.fields.map (fun f => (f.1, encv f.2.2))) x.1).bind
        x.2.1.kind.coerce).getD x.2.1.kind.dflt) = x
    rw [hkw x hx]
    show (x.1, x.2.1,
      (x.2.1.kind.coerce (encv x.2.2)).getD x.2.1.kind.dflt) = x
    rw [hcoe x hx]
    rfl
  unfold construct
  simp only [hfind1, hfind2]
  rw [hfields]

theorem npz_coerce (d : FieldDecl) (v : Value) (hrep : npzRep d v = true) :
    d.kind.coerce (asAnyArray v) = some v := by
  obtain ⟨kind, desc⟩ := d
  cases kind <;> cases v <;> first | rfl | exact Bool.noConfusion hrep

theorem npz_construct_roundtrip (inst : Inst) (hwf : inst.wf)
    (hrep : ∀ f ∈ inst.fields, npzRep f.2.1 f.2.2 = true) :
    fromNpz inst.cls (toNpz inst) = .ok inst := by
  show construct inst.cls (toNpz inst) = .ok inst
  have he : toNpz inst = inst.fields.map (fun f => (f.1, asAnyArray f.2.2)) := by
    unfold toNpz toDict
    rw [List.map_map]
    rfl
  rw [he]
  exact construct_fields_roundtrip inst hwf asAnyArray
    (fun f hf => npz_coerce f.2.1 f.2.2 (hrep f hf))

theorem mapM_jnum_extract (xs : List Int) :
    (xs.map Json.jnum).mapM
      (fun j => match j with | Json.jnum n => some n | _ => Option.none) = some xs := by
  induction xs with
  | nil => rfl
  | cons x t ih =>
    simp only [List.map_cons, List.mapM_cons, ih]
    rfl

theorem mapM_jstr_extract (ss : List String) :
    (ss.map Json.jstr).mapM
      (fun j => match j with | Json.jstr s => some s | _ => Option.none) = some ss := by
  induction ss with
  | nil => rfl
  | cons x t ih =>
    simp only [List.map_cons, List.mapM_cons, ih]
    rfl

theorem mapM_jnum_extract_jstr (s : String) (js : List Json) :
    (Json.jstr s :: js).mapM
      (fun j => match j with | Json.jnum n => some n | _ => Option.none) =
      Option.none := by
  rw [List.mapM_cons]
  rfl

theorem jsonToValue_jsonValOf_arr (xs : List Int) :
    jsonToValue (Json.jarr (xs.map Json.jnum)) = Value.arr xs := by
  simp only [jsonToValue, mapM_jnum_extract]

theorem jsonToValue_jsonValOf_sarr (s : String) (ss : List String) :
    jsonToValue (Json.jarr ((s :: ss).map Json.jstr)) = Value.sarr (s :: ss) := by
  simp only [jsonToValue]
  rw [show (s :: ss).map Json.jstr = Json.jstr s :: ss.map Json.jstr from rfl,
    mapM_jnum_extract_jstr,
    show Json.jstr s :: ss.map Json.jstr = (s :: ss).map Json.jstr from rfl,
    mapM_jstr_extract]

theorem json_coerce (d : FieldDecl) (v : Value) (hrep : jsonRep d v = true) :
    d.kind.coerce (jsonToValue (jsonValOf v)) = some v := by
  obtain ⟨kind, desc⟩ := d
  cases kind with
  | cnum => cases v <;> first | rfl | exact Bool.noConfusion hrep
  | cstr => cases v <;> first | rfl | exact Bool.noConfusion hrep
  | anum =>
    cases v
    case arr xs =>
      show Kind.coerce .anum (jsonToValue (Json.jarr (xs.map Json.jnum))) =
        some (Value.arr xs)
      rw [jsonToValue_jsonValOf_arr]
      rfl
    all_goals exact Bool.noConfusion hrep
  | astr =>
    cases v
    case sarr ss =>
      cases ss with
      | nil => rfl
      | cons s ss2 =>
        show Kind.coerce .astr (jsonToValue (Json.jarr ((s :: ss2).map Json.jstr))) =
          some (Value.sarr (s :: ss2))
        rw [jsonToValue_jsonValOf_sarr]
        rfl
    all_goals exact Bool.noConfusion hrep
  | arec => cases v <;> exact Bool.noConfusion hrep
  | aon =>
    cases v
    case none => rfl
    case arr xs =>
      show Kind.coerce .aon (jsonToValue (Json.jarr (xs.map Json.jnum))) =
        some (Value.arr xs)
      rw [jsonToValue_jsonValOf_arr]
      rfl
    case sarr ss =>
      cases ss with
      | nil => exact Bool.noConfusion hrep
      | cons s ss2 =>
        show Kind.coerce .aon (jsonToValue (Json.jarr ((s :: ss2).map Json.jstr))) =
          some (Value.sarr (s :: ss2))
        rw [jsonToValue_jsonValOf_sarr]
        rfl
    all_goals exact Bool.noConfusion hrep

theorem valueToJson_jsonValOf (d : FieldDecl) (v : Value) (hrep : jsonRep d v = true) :
    valueToJson v = .ok (jsonValOf v) := by
  obtain ⟨kind, desc⟩ := d
  cases kind <;> cases v <;> first | rfl | exact Bool.noConfusion hrep

theorem fieldOk_jsonValOf (d : FieldDecl) (v : Value) (hrep : jsonRep d v = true) :
    fieldOk (jsonValOf v) = true := by
  obtain ⟨kind, desc⟩ := d
  cases kind with
  | cnum => cases v <;> first | rfl | exact Bool.noConfusion hrep
  | cstr => cases v <;> first | rfl | exact hrep | exact Bool.noConfusion hrep
  | anum =>
    cases v
    case arr xs =>
      show (xs.map Json.jnum).all scalarOk = true
      rw [List.all_eq_true]
      intro j hj
      obtain ⟨n, -, hn⟩ := List.mem_map.mp hj
      rw [← hn]
      rfl
    all_goals first | rfl | exact Bool.noConfusion hrep
  | astr =>
    cases v
    case sarr ss =>
      have hall : ss.all jsonStrOk = true := hrep
      show (ss.map Json.jstr).all scalarOk = true
      rw [List.all_eq_true]
      intro j hj
      obtain ⟨s, hs, hn⟩ := List.mem_map.mp hj
      rw [← hn]
      show jsonStrOk s = true
      exact List.all_eq_true.mp hall s hs
    all_goals first | rfl | exact Bool.noConfusion hrep
  | arec => cases v <;> first | rfl | exact Bool.noConfusion hrep
  | aon =>
    cases v
    case sarr ss =>
      have h2 : (!ss.isEmpty && ss.all jsonStrOk) = true := hrep
      simp only [Bool.and_eq_true] at h2
      have hall := h2.2
      show (ss.map Json.jstr).all scalarOk = true
      rw [List.all_eq_true]
      intro j hj
      obtain ⟨s, hs, hn⟩ := List.mem_map.mp hj
      rw [← hn]
      show jsonStrOk s = true
      exact List.all_eq_true.mp hall s hs
    case arr xs =>
      show (xs.map Json.jnum).all scalarOk = true
      rw [List.all_eq_true]
      intro j hj
      obtain ⟨n, -, hn⟩ := List.mem_map.mp hj
      rw [← hn]
      rfl
    all_goals first | rfl | exact Bool.noConfusion hrep

theorem toJson_renderTop (inst : Inst)
    (hrep : ∀ f ∈ inst.fields, jsonRep f.2.1 f.2.2 = true) :
    toJson inst = .ok (String.mk (renderTop
      (inst.fields.map (fun f => (f.1, jsonValOf f.2.2))))) := by
  have h : ∀ f ∈ inst.fields, toJsonField f = .ok (f.1, jsonValOf f.2.2) := by
    intro f hf
    show (valueToJson f.2.2).map (fun j => (f.1, j)) = _
    rw [valueToJson_jsonValOf f.2.1 f.2.2 (hrep f hf)]
    rfl
  unfold toJson
  rw [exceptMapM_ok_of_forall toJsonField (fun f => (f.1, jsonValOf f.2.2))
    inst.fields h]
  rfl

theorem fromJson_renderTop (inst : Inst) (hwf : inst.wf)
    (hnames : ∀ f ∈ inst.fields, jsonStrOk f.1 = true)
    (hrep : ∀ f ∈ inst.fields, jsonRep f.2.1 f.2.2 = true) :
    fromJsonData inst.cls (String.mk (renderTop
      (inst.fields.map (fun f => (f.1, jsonValOf f.2.2))))) = .ok inst := by
  have hok : ∀ kv ∈ inst.fields.map (fun f => (f.1, jsonValOf f.2.2)),
      jsonStrOk kv.1 = true ∧ fieldOk kv.2 = true := by
    intro kv hkv
    obtain ⟨f, hf, hfe⟩ := List.mem_map.mp hkv
    subst hfe
    exact ⟨hnames f hf, fieldOk_jsonValOf f.2.1 f.2.2 (hrep f hf)⟩
  have hloads := jsonLoads_renderTop (inst.fields.map (fun f => (f.1, jsonValOf f.2.2))) hok
  unfold fromJsonData
  simp only [hloads, exceptPureBind]
  have hcomp : (inst.fields.map (fun f => (f.1, jsonValOf f.2.2))).map
      (fun kv => (kv.1, jsonToValue kv.2)) =
      inst.fields.map (fun f => (f.1, jsonToValue (jsonValOf f.2.2))) := by
    rw [List.map_map]
    rfl
  rw [hcomp]
  have hc : construct inst.cls
      (inst.fields.map (fun f => (f.1, jsonToValue (jsonValOf f.2.2)))) = .ok inst :=
    construct_fields_roundtrip inst hwf (fun v => jsonToValue (jsonValOf v))
      (fun f hf => json_coerce f.2.1 f.2.2 (hrep f hf))
  rw [hc]
  rfl

/-- C1: for every well-formed schema instance whose fields hold only values
representable in the target format, `load` applied to the file content
`save` produced yields an instance that compares equal to the original
under `Schema.__eq__` (field-by-field, arrays elementwise) — for each of
the three formats `.npz`, `.h5` and `.json` (the JSON leg additionally
needs field names that are plain JSON strings). -/
theorem C1_roundtrip (inst : Inst) (hwf : inst.wf) (f1 f2 f3 : String)
    (h1 : splitextExt f1 = ".npz") (h2 : splitextExt f2 = ".h5")
    (h3 : splitextExt f3 = ".json") :
    ((∀ f ∈ inst.fields, npzRep f.2.1 f.2.2 = true) →
      ∃ c, save inst f1 = ([.fileCreated f1], .ok c) ∧
        ∃ inst2, load inst.cls f1 c = ([.fileRead f1], .ok inst2) ∧
          schemaEq inst2 inst = true) ∧
    ((∀ f ∈ inst.fields, h5Rep f.2.1 f.2.2 = true) →
      ∃ c, save inst f2 = ([.fileCreated f2], .ok c) ∧
        ∃ inst2, load inst.cls f2 c = ([.fileRead f2], .ok inst2) ∧
          schemaEq inst2 inst = true) ∧
    ((∀ f ∈ inst.fields, jsonStrOk f.1 = true) →
      (∀ f ∈ inst.fields, jsonRep f.2.1 f.2.2 = true) →
      ∃ c, save inst f3 = ([.fileCreated f3], .ok c) ∧
        ∃ inst2, load inst.cls f3 c = ([.fileRead f3], .ok inst2) ∧
          schemaEq inst2 inst = true) := by
  have hndf : (inst.fields.map Prod.fst).Nodup := by
    have he : inst.cls.decl.map Prod.fst = inst.fields.map Prod.fst := by
      rw [← hwf.1, List.map_map]
      rfl
    rw [← he]
    exact hwf.2
  have hself := schemaEq_self inst hndf
  refine ⟨fun hrep => ?_, fun hrep => ?_, fun hnames hrep => ?_⟩
  · refine ⟨.npz (toNpz inst), ?_, inst, ?_, hself⟩
    · simp only [save, h1]
      rw [if_true]
    · simp only [load, h1]
      rw [if_true]
      show ([FEvent.fileRead f1],
        (fromNpz inst.cls (toNpz inst)).mapError LoadErr.constructErr) = _
      rw [npz_construct_roundtrip inst hwf hrep]
      rfl
  · refine ⟨.h5 ⟨hdfDsetsOf inst.fields, inst.cls.name, inst.cls.modName⟩,
      ?_, inst, ?_, hself⟩
    · simp only [save, h2]
      rw [if_true]
      show ([FEvent.fileCreated f2],
        (((toHdf inst "w" Option.none Option.none true).2).map FileContent.h5).mapError
          SaveErr.hdf) = _
      rw [(h5_roundtrip inst hwf hrep).1]
      rfl
    · simp only [load, h2]
      rw [if_true]
      show ([FEvent.fileRead f2],
        (fromHdf inst.cls ⟨hdfDsetsOf inst.fields, inst.cls.name, inst.cls.modName⟩
          true).mapError LoadErr.hdf) = _
      rw [(h5_roundtrip inst hwf hrep).2]
      rfl
  · refine ⟨.text (String.mk (renderTop
      (inst.fields.map (fun f => (f.1, jsonValOf f.2.2))))), ?_, inst, ?_, hself⟩
    · simp only [save, h3]
      rw [if_true]
      show ([FEvent.fileCreated f3],
        ((toJson inst).map FileContent.text).mapError SaveErr.json) = _
      rw [toJson_renderTop inst hrep]
      rfl
    · simp only [load, h3]
      rw [if_true]
      show ([FEvent.fileRead f3],
        (fromJsonData inst.cls (String.mk (renderTop
          (inst.fields.map (fun f => (f.1, jsonValOf f.2.2)))))).mapError
            LoadErr.json) = _
      rw [fromJson_renderTop inst hwf hnames hrep]
      rfl

theorem C1_roundtrip_witness :
    ((⟨⟨"S", "m",
        [("name", ⟨Kind.cstr, Option.none⟩), ("x", ⟨Kind.anum, Option.none⟩),
          ("z", ⟨Kind.astr, Option.none⟩), ("u", ⟨Kind.aon, Option.none⟩)]⟩,
      [("name", ⟨Kind.cstr, Option.none⟩, Value.str "a b"),
        ("x", ⟨Kind.anum, Option.none⟩, Value.arr [1, -2]),
        ("z", ⟨Kind.astr, Option.none⟩, Value.sarr ["ab"]),
        ("u", ⟨Kind.aon, Option.none⟩, Value.arr [3])]⟩ : Inst).wf) ∧
    (∃ c, save
        ⟨⟨"S", "m",
          [("name", ⟨Kind.cstr, Option.none⟩), ("x", ⟨Kind.anum, Option.none⟩),
            ("z", ⟨Kind.astr, Option.none⟩), ("u", ⟨Kind.aon, Option.none⟩)]⟩,
        [("name", ⟨Kind.cstr, Option.none⟩, Value.str "a b"),
          ("x", ⟨Kind.anum, Option.none⟩, Value.arr [1, -2]),
          ("z", ⟨Kind.astr, Option.none⟩, Value.sarr ["ab"]),
          ("u", ⟨Kind.aon, Option.none⟩, Value.arr [3])]⟩ "d.npz" =
          ([.fileCreated "d.npz"], .ok c) ∧
      ∃ inst2, load
          ⟨"S", "m",
            [("name", ⟨Kind.cstr, Option.none⟩), ("x", ⟨Kind.anum, Option.none⟩),
              ("z", ⟨Kind.astr, Option.none⟩), ("u", ⟨Kind.aon, Option.none⟩)]⟩
          "d.npz" c = ([.fileRead "d.npz"], .ok inst2) ∧
        schemaEq inst2
          ⟨⟨"S", "m",
            [("name", ⟨Kind.cstr, Option.none⟩), ("x", ⟨Kind.anum, Option.none⟩),
              ("z", ⟨Kind.astr, Option.none⟩), ("u", ⟨Kind.aon, Option.none⟩)]⟩,
          [("name", ⟨Kind.cstr, Option.none⟩, Value.str "a b"),
            ("x", ⟨Kind.anum, Option.none⟩, Value.arr [1, -2]),
            ("z", ⟨Kind.astr, Option.none⟩, Value.sarr ["ab"]),
            ("u", ⟨Kind.aon, Option.none⟩, Value.arr [3])]⟩ = true) ∧
    (∃ c, save
        ⟨⟨"S", "m",
          [("name", ⟨Kind.cstr, Option.none⟩), ("x", ⟨Kind.anum, Option.none⟩),
            ("z", ⟨Kind.astr, Option.none⟩), ("u", ⟨Kind.aon, Option.none⟩)]⟩,
        [("name", ⟨Kind.cstr, Option.none⟩, Value.str "a b"),
          ("x", ⟨Kind.anum, Option.none⟩, Value.arr [1, -2]),
          ("z", ⟨Kind.astr, Option.none⟩, Value.sarr ["ab"]),
          ("u", ⟨Kind.aon, Option.none⟩, Value.arr [3])]⟩ "d.h5" =
          ([.fileCreated "d.h5"], .ok c) ∧
      ∃ inst2, load
          ⟨"S", "m",
            [("name", ⟨Kind.cstr, Option.none⟩), ("x", ⟨Kind.anum, Option.none⟩),
              ("z", ⟨Kind.astr, Option.none⟩), ("u", ⟨Kind.aon, Option.none⟩)]⟩
          "d.h5" c = ([.fileRead "d.h5"], .ok inst2) ∧
        schemaEq inst2
          ⟨⟨"S", "m",
            [("name", ⟨Kind.cstr, Option.none⟩), ("x", ⟨Kind.anum, Option.none⟩),
              ("z", ⟨Kind.astr, Option.none⟩), ("u", ⟨Kind.aon, Option.none⟩)]⟩,
          [("name", ⟨Kind.cstr, Option.none⟩, Value.str "a b"),
            ("x", ⟨Kind.anum, Option.none⟩, Value.arr [1, -2]),
            ("z", ⟨Kind.astr, Option.none⟩, Value.sarr ["ab"]),
            ("u", ⟨Kind.aon, Option.none⟩, Value.arr [3])]⟩ = true) ∧
    (∃ c, save
        ⟨⟨"S", "m",
          [("name", ⟨Kind.cstr, Option.none⟩), ("x", ⟨Kind.anum, Option.none⟩),
            ("z", ⟨Kind.astr, Option.none⟩), ("u", ⟨Kind.aon, Option.none⟩)]⟩,
        [("name", ⟨Kind.cstr, Option.none⟩, Value.str "a b"),
          ("x", ⟨Kind.anum, Option.none⟩, Value.arr [1, -2]),
          ("z", ⟨Kind.astr, Option.none⟩, Value.sarr ["ab"]),
          ("u", ⟨Kind.aon, Option.none⟩, Value.arr [3])]⟩ "d.json" =
          ([.fileCreated "d.json"], .ok c) ∧
      ∃ inst2, load
          ⟨"S", "m",
            [("name", ⟨Kind.cstr, Option.none⟩), ("x", ⟨Kind.anum, Option.none⟩),
              ("z", ⟨Kind.astr, Option.none⟩), ("u", ⟨Kind.aon, Option.none⟩)]⟩
          "d.json" c = ([.fileRead "d.json"], .ok inst2) ∧
        schemaEq inst2
          ⟨⟨"S", "m",
            [("name", ⟨Kind.cstr, Option.none⟩), ("x", ⟨Kind.anum, Option.none⟩),
              ("z", ⟨Kind.astr, Option.none⟩), ("u", ⟨Kind.aon, Option.none⟩)]⟩,
          [("name", ⟨Kind.cstr, Option.none⟩, Value.str "a b"),
            ("x", ⟨Kind.anum, Option.none⟩, Value.arr [1, -2]),
            ("z", ⟨Kind.astr, Option.none⟩, Value.sarr ["ab"]),
            ("u", ⟨Kind.aon, Option.none⟩, Value.arr [3])]⟩ = true) := by
  have h := C1_roundtrip
    ⟨⟨"S", "m",
      [("name", ⟨Kind.cstr, Option.none⟩), ("x", ⟨Kind.anum, Option.none⟩),
        ("z", ⟨Kind.astr, Option.none⟩), ("u", ⟨Kind.aon, Option.none⟩)]⟩,
    [("name", ⟨Kind.cstr, Option.none⟩, Value.str "a b"),
      ("x", ⟨Kind.anum, Option.none⟩, Value.arr [1, -2]),
      ("z", ⟨Kind.astr, Option.none⟩, Value.sarr ["ab"]),
      ("u", ⟨Kind.aon, Option.none⟩, Value.arr [3])]⟩
    (by decide) "d.npz" "d.h5" "d.json" (by decide) (by decide) (by decide)
  exact ⟨by decide, h.1 (by decide), h.2.1 (by decide), h.2.2 (by decide) (by decide)⟩

end Traitschema
